import Mathlib

/-!
Verification development for the `gemini-cli` chat client.

The Python source (`gemini_cli.py`) is shallowly embedded below: pure string
manipulation becomes functions on `List Char` / `String`, the remote API is an
explicit `Except`-valued parameter, and the interactive loop body becomes a
step function from the loop's state and one input line to the next state
together with the printed output.  `wrap_text` delegates to Python's
`textwrap.wrap` with default options; that library function is embedded
faithfully (tab expansion, whitespace replacement, the word-separation
regular expression restricted to its ASCII behaviour, greedy line filling and
long-word breaking) since the claims about `wrap_text` are decided by it.
-/

set_option maxRecDepth 10000

namespace GeminiCli

/-- The six characters of Python's `string.whitespace`, as a predicate.
`textwrap` munges exactly these; `str.strip()` / `str.split()` agree with this
set on ASCII input, which is the scope of this embedding. -/
def isPyWS (c : Char) : Bool :=
  c == ' ' || c == '\t' || c == '\n' || c == '\r' || c == Char.ofNat 11 || c == Char.ofNat 12

/-- Test that `pat` occurs at the head of the second list (string prefix test). -/
def leadsWith : List Char → List Char → Bool
  | [], _ => true
  | _ :: _, [] => false
  | p :: ps, c :: cs => p == c && leadsWith ps cs

/-- Python's substring membership `pat in s`, on character lists. -/
def containsSubList (pat : List Char) : List Char → Bool
  | [] => pat.isEmpty
  | c :: rest => leadsWith pat (c :: rest) || containsSubList pat rest

/-- Python's substring membership `pat in s`, on strings. -/
def containsSub (pat s : String) : Bool := containsSubList pat.data s.data

/-- Python `str.strip()` on character lists (ASCII whitespace). -/
def pyStrip (l : List Char) : List Char :=
  ((l.dropWhile isPyWS).reverse.dropWhile isPyWS).reverse

/-- Python `str.strip()` on strings. -/
def stripStr (s : String) : String := String.mk (pyStrip s.data)

/-- Python `str.lower()` on strings (ASCII fragment). -/
def lowerStr (s : String) : String := String.mk (s.data.map Char.toLower)

/-! ### `textwrap` : whitespace munging -/

/-- One step of Python `str.expandtabs(8)`: column tracking, reset on
newline and carriage return (`gemini_cli.py` reaches this through
`textwrap.TextWrapper._munge_whitespace`). -/
def expandTabsGo : Nat → List Char → List Char
  | _, [] => []
  | col, c :: rest =>
    if c == '\t' then
      List.replicate (8 - col % 8) ' ' ++ expandTabsGo (col + (8 - col % 8)) rest
    else if c == '\n' || c == '\r' then c :: expandTabsGo 0 rest
    else c :: expandTabsGo (col + 1) rest

/-- Python `str.expandtabs(8)`. -/
def expandTabs (l : List Char) : List Char := expandTabsGo 0 l

/-- The column reached by `expandtabs` after processing a list (used to state
how tab expansion splits over concatenation). -/
def colAfter : Nat → List Char → Nat
  | col, [] => col
  | col, c :: rest =>
    if c == '\t' then colAfter (col + (8 - col % 8)) rest
    else if c == '\n' || c == '\r' then colAfter 0 rest
    else colAfter (col + 1) rest

/-- `TextWrapper._munge_whitespace` with the default options: expand tabs,
then replace every whitespace character by a space. -/
def mungeWhitespace (l : List Char) : List Char :=
  (expandTabs l).map (fun c => if isPyWS c then ' ' else c)

/-! ### `textwrap` : the word-separation regular expression

`TextWrapper.wordsep_re` (used because `break_on_hyphens` defaults to `True`)
tiles the munged text into chunks: runs of whitespace, em-dashes (runs of two
or more hyphens preceded by word punctuation and followed by a word
character), and words, where a word may be cut after an interior hyphen in
the hyphenated-word situation recognised by the regex.  The functions below
implement the leftmost-match semantics of that regular expression on the
ASCII character classes (`\w` = alphanumeric or underscore). -/

/-- The regex class `\w` (ASCII fragment). -/
def isWordChar (c : Char) : Bool := c.isAlphanum || c == '_'

/-- The regex class `[^\d\W]` (letters, including underscore; ASCII fragment). -/
def isLetterChar (c : Char) : Bool := isWordChar c && !c.isDigit

/-- The `word_punct` class of `wordsep_re` (ASCII fragment). -/
def isWordPunct (c : Char) : Bool :=
  isWordChar c || c == '!' || c == '"' || c == Char.ofNat 39 || c == '&' ||
    c == '.' || c == ',' || c == '?'

/-- Test a predicate at position `i`, false when out of range. -/
def testAt (t : List Char) (i : Nat) (p : Char → Bool) : Bool :=
  match t[i]? with
  | some c => p c
  | none => false

/-- Length of the run of hyphens of `t` starting at position `i`. -/
def hyphenRunLen (t : List Char) (i : Nat) : Nat :=
  ((t.drop i).takeWhile (fun c => c == '-')).length

/-- The em-dash pattern `-{2,}(?=\w)` at position `i` (the greedy hyphen run
must be followed by a word character). -/
def emDashAhead (t : List Char) (i : Nat) : Bool :=
  decide (2 ≤ hyphenRunLen t i) && testAt t (i + hyphenRunLen t i) isWordChar

/-- Length consumed by the word alternative of `wordsep_re` starting at
position `i`, when `n` non-whitespace characters are already consumed: the
lazy `[^ \t\n\r\x0b\x0c]+?` grows until the hyphenated-word alternative
consumes the hyphen, the end-of-word lookahead succeeds (whitespace or end of
text), or the em-dash lookahead succeeds. -/
def wordTokenEnd (t : List Char) (i : Nat) : Nat → Nat → Nat
  | 0, n => n
  | fuel + 1, n =>
    let p := i + n
    if testAt t p (fun c => c == '-') &&
       ((decide (2 ≤ p) && testAt t (p - 2) isLetterChar && testAt t (p - 1) isLetterChar) ||
        (decide (3 ≤ p) && testAt t (p - 3) isLetterChar &&
          testAt t (p - 2) (fun c => c == '-') && testAt t (p - 1) isLetterChar)) &&
       (testAt t (p + 1) isLetterChar &&
         (testAt t (p + 2) isLetterChar ||
          (testAt t (p + 2) (fun c => c == '-') && testAt t (p + 3) isLetterChar)))
    then n + 1
    else if (match t[p]? with | some c => isPyWS c | none => true) then n
    else if testAt t (p - 1) isWordPunct && emDashAhead t p then n
    else wordTokenEnd t i fuel (n + 1)

/-- Successive leftmost matches of `wordsep_re` from position `i` (the
alternatives in the regex order: whitespace run, em-dash between words,
word).  `fuel` bounds the recursion; `t.length` suffices since every token is
nonempty. -/
def splitGo (t : List Char) : Nat → Nat → List (List Char)
  | 0, _ => []
  | fuel + 1, i =>
    match t[i]? with
    | none => []
    | some c =>
      if isPyWS c then
        ((t.drop i).takeWhile isPyWS) :: splitGo t fuel (i + ((t.drop i).takeWhile isPyWS).length)
      else if decide (1 ≤ i) && testAt t (i - 1) isWordPunct && emDashAhead t i then
        ((t.drop i).take (hyphenRunLen t i)) :: splitGo t fuel (i + hyphenRunLen t i)
      else
        ((t.drop i).take (wordTokenEnd t i t.length 1)) ::
          splitGo t fuel (i + wordTokenEnd t i t.length 1)

/-- `TextWrapper._split` on already munged text: the chunks are the tokens of
`wordsep_re`; they are nonempty by construction, matching the source's filter
of empty strings. -/
def splitChunks (t : List Char) : List (List Char) := splitGo t t.length 0

/-! ### `textwrap` : greedy line filling -/

/-- A chunk that `str.strip()`s to the empty string (whitespace only). -/
def chunkIsBlank (c : List Char) : Bool := (pyStrip c).isEmpty

/-- The inner loop of `TextWrapper._wrap_chunks`: move chunks onto the current
line while they fit.  Returns the current line, its length, and the remaining
chunks. -/
def fillLineGo (width : Nat) : List (List Char) → Nat → List (List Char) →
    List (List Char) × Nat × List (List Char)
  | acc, curLen, [] => (acc.reverse, curLen, [])
  | acc, curLen, c :: rest =>
    if curLen + c.length ≤ width then fillLineGo width (c :: acc) (curLen + c.length) rest
    else (acc.reverse, curLen, c :: rest)

/-- Python `chunk.rfind('-', 0, e)` as an `Option`: the largest index below
`e` holding a hyphen. -/
def rfindHyphen (chunk : List Char) (e : Nat) : Option Nat :=
  match (chunk.take e).reverse.findIdx? (fun c => c == '-') with
  | some k => some ((chunk.take e).length - 1 - k)
  | none => none

/-- `TextWrapper._handle_long_word` with the default options
(`break_long_words` and `break_on_hyphens` both true): cut the chunk at the
space left on the line, or just after the last admissible hyphen.  Returns
the piece put on the current line and the remainder pushed back. -/
def handleLongWord (width curLen : Nat) (chunk : List Char) : List Char × List Char :=
  let spaceLeft := if width < 1 then 1 else width - curLen
  let endIdx :=
    if spaceLeft < chunk.length then
      match rfindHyphen chunk spaceLeft with
      | some h =>
        if decide (0 < h) && (chunk.take h).any (fun c => !(c == '-')) then h + 1 else spaceLeft
      | none => spaceLeft
    else spaceLeft
  (chunk.take endIdx, chunk.drop endIdx)

/-- The per-line body of `TextWrapper._wrap_chunks`: fill greedily, break a
too-long next chunk with `_handle_long_word`, drop a trailing whitespace
chunk.  Returns the finished current line (as its chunk list) and the
remaining chunks. -/
def buildLine (width : Nat) (chunks : List (List Char)) :
    List (List Char) × List (List Char) :=
  let f := fillLineGo width [] 0 chunks
  let g : List (List Char) × List (List Char) :=
    match f.2.2 with
    | [] => (f.1, [])
    | c :: cs =>
      if width < c.length then
        ((f.1 ++ [(handleLongWord width f.2.1 c).1]), (handleLongWord width f.2.1 c).2 :: cs)
      else (f.1, c :: cs)
  match g.1.getLast? with
  | some lastC => if chunkIsBlank lastC then (g.1.dropLast, g.2) else g
  | none => g

/-- One iteration of the outer `while chunks` loop of `_wrap_chunks`: drop a
leading whitespace chunk except before the first line, build one line, and
emit it when nonempty.  `lines` accumulates in reverse. -/
def wrapIter (width : Nat) (lines : List (List Char)) (ch : List Char)
    (chs : List (List Char)) : List (List Char) × List (List Char) :=
  let chunks := if !lines.isEmpty && chunkIsBlank ch then chs else ch :: chs
  let b := buildLine width chunks
  ((if b.1.isEmpty then lines else b.1.flatten :: lines), b.2)

/-- `TextWrapper._wrap_chunks` (default options, empty indents, no
`max_lines`), iterating `wrapIter` until the chunks are exhausted. -/
def wrapChunksGo (width : Nat) : Nat → List (List Char) → List (List Char) → List (List Char)
  | 0, lines, _ => lines.reverse
  | _ + 1, lines, [] => lines.reverse
  | fuel + 1, lines, ch :: chs =>
    wrapChunksGo width fuel (wrapIter width lines ch chs).1 (wrapIter width lines ch chs).2

/-- Fuel that strictly dominates the steps of `_wrap_chunks`: the chunk count
plus the total character count. -/
def chunksMeasure (chunks : List (List Char)) : Nat :=
  chunks.length + (chunks.map List.length).sum

/-- Total character count of a chunk list (used in the analysis of
`_wrap_chunks`). -/
def sumLens (chunks : List (List Char)) : Nat := (chunks.map List.length).sum

/-- Every character of the chunk is whitespace, or none is; tokens of
`wordsep_re` have this shape. -/
def chunkHomog (c : List Char) : Prop :=
  (∀ x ∈ c, isPyWS x = true) ∨ (∀ x ∈ c, isPyWS x = false)

/-- The chunk-stream invariant maintained by `_wrap_chunks`: chunks are
nonempty and homogeneous, and no two adjacent chunks are both blank. -/
def ChunksOk (chunks : List (List Char)) : Prop :=
  (∀ c ∈ chunks, c ≠ [] ∧ chunkHomog c) ∧
  List.Chain' (fun a b => ¬(chunkIsBlank a = true ∧ chunkIsBlank b = true)) chunks

/-- Every fully non-whitespace chunk fits within the width. -/
def ChunksBounded (width : Nat) (chunks : List (List Char)) : Prop :=
  ∀ c ∈ chunks, (∀ x ∈ c, isPyWS x = false) → c.length ≤ width

/-- No `width + 1` consecutive non-whitespace characters occur in the text:
equivalently, every maximal non-whitespace run (every word) has length at
most `width`.  Decidable by evaluation. -/
def runsBounded (t : List Char) (width : Nat) : Bool :=
  (List.range (t.length + 1)).all
    (fun i => ((t.drop i).takeWhile (fun c => !isPyWS c)).length ≤ width)

/-- Python `textwrap.wrap(text, width=width)` with the default options, on an
already newline-free line of text.  (The source raises `ValueError` for
`width <= 0`; the claims only concern positive widths.) -/
def textwrapWrap (text : List Char) (width : Nat) : List (List Char) :=
  wrapChunksGo width (chunksMeasure (splitChunks (mungeWhitespace text)) + 1) []
    (splitChunks (mungeWhitespace text))

/-! ### `wrap_text` -/

/-- Python `text.split('\n')`. -/
def splitOnNewline : List Char → List (List Char)
  | [] => [[]]
  | c :: rest =>
    if c == '\n' then [] :: splitOnNewline rest
    else
      match splitOnNewline rest with
      | [] => [[c]]
      | l :: ls => (c :: l) :: ls

/-- Python `'\n'.join(lines)`. -/
def joinNewline : List (List Char) → List Char
  | [] => []
  | [l] => l
  | l :: l2 :: ls => l ++ '\n' :: joinNewline (l2 :: ls)

/-- The line list built by `wrap_text`: blank input lines become empty lines,
other lines are wrapped by `textwrap.wrap`. -/
def wrapTextLines (text : List Char) (width : Nat) : List (List Char) :=
  (splitOnNewline text).flatMap (fun line =>
    if (pyStrip line).isEmpty then [([] : List Char)] else textwrapWrap line width)

/-- `wrap_text(text, width)` from `gemini_cli.py`, on character lists. -/
def wrapText (text : List Char) (width : Nat) : List Char :=
  joinNewline (wrapTextLines text width)

/-- `wrap_text(text, width)` from `gemini_cli.py`, on strings (the source's
default width is 100). -/
def wrap_text (text : String) (width : Nat) : String :=
  String.mk (wrapText text.data width)

/-- The shape of every line emitted by `_wrap_chunks` on munged, width-bounded
chunk streams: nonempty, within the width, ending in a non-whitespace
character, and with every whitespace character a plain space.  Such a line is
a fixed point of the wrapping pipeline. -/
def GoodLine (width : Nat) (line : List Char) : Prop :=
  line ≠ [] ∧ line.length ≤ width ∧
    (∃ lc, line.getLast? = some lc ∧ isPyWS lc = false) ∧
    (∀ x ∈ line, isPyWS x = true → x = ' ')

/-! ### Model catalog fetcher (`get_available_models`) -/

/-- The hard-coded fallback list of `get_available_models`. -/
def fallbackModels : List String :=
  ["models/gemini-1.5-flash", "models/gemini-1.5-pro", "models/gemini-1.0-pro"]

/-- The exclusion substrings of `get_available_models`. -/
def excludedMarkers : List String :=
  ["embedding", "vision", "tts", "native-audio", "thinking"]

/-- The core-family allow-list substrings of `get_available_models`. -/
def coreMarkers : List String :=
  ["gemini-1.5-pro", "gemini-1.5-flash", "gemini-1.0-pro"]

/-- The two-stage filter applied to each remote model name: family marker and
no excluded marker, then a core-family marker. -/
def modelPasses (name : String) : Bool :=
  containsSub "gemini" name &&
    !(excludedMarkers.any (fun ex => containsSub ex name)) &&
    (coreMarkers.any (fun core => containsSub core name))

/-- `get_available_models`, with the remote `genai.list_models()` call made
explicit: `Except.error` is a raised exception, `Except.ok` the listed model
names. -/
def getAvailableModels (remote : Except String (List String)) : List String :=
  match remote with
  | Except.error _ => fallbackModels
  | Except.ok names =>
    if (names.filter modelPasses).isEmpty then fallbackModels
    else names.filter modelPasses

/-! ### Session factory (`create_chat`) -/

/-- An opaque chat session handle, identified by its model name. -/
structure ChatSession where
  modelName : String
  deriving DecidableEq

/-- The remediation message printed by `create_chat` when the error text
contains both `"404"` and `"not found"` (source lines 103–107). -/
def notFoundRemediation (modelName : String) : List String :=
  ["Error: Model '" ++ modelName ++ "' is not supported for chat/content generation.",
   "Try using one of these reliable models instead:",
   "  - models/gemini-1.5-flash (recommended)",
   "  - models/gemini-1.5-pro",
   "  - models/gemini-1.0-pro"]

/-- `create_chat`, with the remote session construction made explicit as an
`Except` outcome.  Returns the printed lines and the session (absent on any
failure). -/
def createChat (modelName : String) (attempt : Except String ChatSession) :
    List String × Option ChatSession :=
  match attempt with
  | Except.ok chat => ([], some chat)
  | Except.error e =>
    if containsSub "404" e && containsSub "not found" e then
      (notFoundRemediation modelName, none)
    else
      (["Error creating chat session: " ++ e], none)

/-! ### Interactive loop (`chat_loop`), one iteration -/

/-- The state of the interactive loop: reading input while holding the
current (possibly absent) session, or terminated. -/
inductive LoopState where
  | awaiting (chat : Option ChatSession)
  | terminated
  deriving DecidableEq

/-- Result of one loop iteration: the next state, whether `send_message` was
invoked on a session, and the printed lines. -/
structure StepResult where
  next : LoopState
  sent : Bool
  output : List String
  deriving DecidableEq

/-- The rate-limit remediation block of `chat_loop` (source lines 150–154). -/
def rateLimitMessages : List String :=
  ["\n\x1b[1;31mRate Limit Error:\x1b[0m You've reached the API rate limits for the free tier.",
   "Tips to resolve this issue:",
   "  1. Wait a minute before trying again",
   "  2. Try using a different model with '--model models/gemini-1.5-flash-8b'",
   "  3. Check your quota at https://ai.google.dev/gemini-api/docs/rate-limits\n"]

/-- The generic turn-error print of `chat_loop` (source line 156): the raw
error text inside colour decoration. -/
def rawErrorMessage (e : String) : String :=
  "\n\x1b[1;31mError: " ++ e ++ "\x1b[0m\n"

/-- The error-classification branch of `chat_loop` (source lines 148–156). -/
def classifyTurnError (e : String) : List String :=
  if containsSub "429" e && containsSub "quota" (lowerStr e) then rateLimitMessages
  else [rawErrorMessage e]

/-- The `str(e)` of the `AttributeError` raised when the loop's session is
`None` and `.send_message` is attempted on it. -/
def noneSendError : String := "'NoneType' object has no attribute 'send_message'"

/-- The response banner print of `chat_loop` (source line 146). -/
def responsePrint (text : String) : String :=
  "\n\x1b[1;32mGemini:\x1b[0m\n" ++ wrap_text text 100 ++ "\n"

/-- One iteration of the `while True` body of `chat_loop`, with the remote
calls made explicit: `factory` is the outcome `create_chat` would obtain and
`send` the outcome of `chat.send_message`.  The input is stripped at the
prompt (source line 130). -/
def loopStep (modelName : String) (factory : Except String ChatSession)
    (send : ChatSession → String → Except String String)
    (chat : Option ChatSession) (rawInput : String) : StepResult :=
  let userInput := stripStr rawInput
  if lowerStr userInput == "exit" || lowerStr userInput == "quit" then
    { next := LoopState.terminated, sent := false, output := ["Exiting chat."] }
  else if lowerStr userInput == "clear" then
    { next := LoopState.awaiting (createChat modelName factory).2, sent := false,
      output := (createChat modelName factory).1 ++ ["Chat history cleared."] }
  else if userInput == "" then
    { next := LoopState.awaiting chat, sent := false, output := [] }
  else
    match chat with
    | none =>
      { next := LoopState.awaiting none, sent := false,
        output := classifyTurnError noneSendError }
    | some c =>
      match send c userInput with
      | Except.ok text =>
        { next := LoopState.awaiting chat, sent := true, output := [responsePrint text] }
      | Except.error e =>
        { next := LoopState.awaiting chat, sent := true, output := classifyTurnError e }

/-! ### Basic lemmas on the string helpers -/

theorem leadsWith_append (p b : List Char) : leadsWith p (p ++ b) = true := by
  induction p with
  | nil => rfl
  | cons c cs ih => simp [leadsWith, ih]

theorem containsSubList_head (p b : List Char) : containsSubList p (p ++ b) = true := by
  cases hpb : p ++ b with
  | nil =>
    have h1 : p = [] := (List.append_eq_nil.mp hpb).1
    rw [h1]
    rfl
  | cons c cs =>
    rw [containsSubList]
    have hl : leadsWith p (c :: cs) = true := by
      rw [← hpb]
      exact leadsWith_append p b
    simp [hl]

theorem containsSubList_mid (a p b : List Char) : containsSubList p (a ++ p ++ b) = true := by
  induction a with
  | nil => simpa using containsSubList_head p b
  | cons c cs ih =>
    have hshape : (c :: cs) ++ p ++ b = c :: (cs ++ (p ++ b)) := by simp
    rw [hshape, containsSubList]
    rw [List.append_assoc] at ih
    simp [ih]

theorem containsSub_sandwich (p a b : String) : containsSub p (a ++ p ++ b) = true := by
  unfold containsSub
  rw [String.data_append, String.data_append, List.append_assoc]
  rw [← List.append_assoc]
  exact containsSubList_mid a.data p.data b.data

theorem toLower_of_pyWS {c : Char} (h : isPyWS c = true) : c.toLower = c := by
  unfold isPyWS at h
  simp only [Bool.or_eq_true, beq_iff_eq] at h
  rcases h with ((((h | h) | h) | h) | h) | h <;> subst h <;> decide

theorem noWS_of_lower (s w : String) (h : lowerStr s = w)
    (hw : ∀ c ∈ w.data, isPyWS c = false) : ∀ c ∈ s.data, isPyWS c = false := by
  intro c hc
  have hdata : s.data.map Char.toLower = w.data := congrArg String.data h
  have hmem : c.toLower ∈ w.data := hdata ▸ List.mem_map_of_mem Char.toLower hc
  by_contra hne
  have hws : isPyWS c = true := by
    cases hcc : isPyWS c with
    | true => rfl
    | false => exact absurd hcc hne
  have := hw _ hmem
  rw [toLower_of_pyWS hws] at this
  rw [this] at hws
  exact Bool.false_ne_true hws

theorem dropWhile_eq_self_of_all {p : Char → Bool} :
    ∀ l : List Char, (∀ c ∈ l, p c = false) → l.dropWhile p = l
  | [], _ => rfl
  | c :: rest, h => by
    rw [List.dropWhile_cons, h c (by simp)]
    simp

theorem pyStrip_eq_self {l : List Char} (h : ∀ c ∈ l, isPyWS c = false) : pyStrip l = l := by
  unfold pyStrip
  rw [dropWhile_eq_self_of_all l h,
    dropWhile_eq_self_of_all l.reverse (fun c hc => h c (List.mem_reverse.mp hc)),
    List.reverse_reverse]

theorem string_mk_data (s : String) : String.mk s.data = s := rfl

theorem stripStr_eq_self {s : String} (h : ∀ c ∈ s.data, isPyWS c = false) :
    stripStr s = s := by
  unfold stripStr
  rw [pyStrip_eq_self h]

theorem beq_false_of_ne {a b : String} (h : a ≠ b) : (a == b) = false :=
  beq_eq_false_iff_ne.mpr h

theorem createChat_error_session (m e : String) :
    (createChat m (Except.error e)).2 = none := by
  cases h : containsSub "404" e && containsSub "not found" e <;> simp [createChat, h]

/-! ### Positional lemmas on `takeWhile`, `testAt`, and the word tokenizer -/

theorem takeWhile_getElem {p : Char → Bool} {l : List Char} {m : Nat}
    (h : m < (l.takeWhile p).length) : ∃ c, l[m]? = some c ∧ p c = true := by
  have hpre : l.takeWhile p <+: l := List.takeWhile_prefix p
  obtain ⟨tl, htl⟩ := hpre
  refine ⟨(l.takeWhile p)[m], ?_, ?_⟩
  · have hleft : (l.takeWhile p ++ tl)[m]? = (l.takeWhile p)[m]? :=
      List.getElem?_append_left h
    rw [htl] at hleft
    rw [hleft]
    exact List.getElem?_eq_getElem h
  · exact List.mem_takeWhile_imp (List.getElem_mem h)

theorem takeWhile_stop {p : Char → Bool} : ∀ (l : List Char) (x : Char),
    l[(l.takeWhile p).length]? = some x → p x = false := by
  intro l
  induction l with
  | nil => intro x h; simp at h
  | cons c rest ih =>
    intro x h
    cases hc : p c with
    | true =>
      rw [List.takeWhile_cons_of_pos hc] at h
      simp only [List.length_cons, List.getElem?_cons_succ] at h
      exact ih x h
    | false =>
      rw [List.takeWhile_cons_of_neg (by simp [hc])] at h
      simp only [List.length_nil, List.getElem?_cons_zero, Option.some.injEq] at h
      rw [← h]
      exact hc

theorem testAt_eq_true {t : List Char} {i : Nat} {p : Char → Bool}
    (h : testAt t i p = true) : ∃ c, t[i]? = some c ∧ p c = true := by
  unfold testAt at h
  cases hc : t[i]? with
  | none => rw [hc] at h; exact absurd h (by simp)
  | some c => rw [hc] at h; exact ⟨c, rfl, h⟩

theorem testAt_of_getElem {t : List Char} {i : Nat} {p : Char → Bool} {c : Char}
    (hc : t[i]? = some c) : testAt t i p = p c := by
  unfold testAt
  rw [hc]

theorem wsMatch_eq_false {t : List Char} {p : Nat}
    (h : (match t[p]? with | some c => isPyWS c | none => true) = false) :
    ∃ c, t[p]? = some c ∧ isPyWS c = false := by
  cases hc : t[p]? with
  | none => rw [hc] at h; simp at h
  | some c => rw [hc] at h; exact ⟨c, rfl, h⟩

theorem hyphenRunLen_zero {t : List Char} {p : Nat} {c : Char}
    (hc : t[p]? = some c) (hne : (c == '-') = false) : hyphenRunLen t p = 0 := by
  unfold hyphenRunLen
  cases hd : t.drop p with
  | nil => simp
  | cons d ds =>
    have h0 : (t.drop p)[0]? = t[p]? := by
      rw [List.getElem?_drop]
      simp
    rw [hd, hc] at h0
    simp only [List.getElem?_cons_zero, Option.some.injEq] at h0
    rw [List.takeWhile_cons_of_neg]
    · rfl
    · simp [h0, hne]

theorem emDashAhead_of_nonHyphen {t : List Char} {p : Nat} {c : Char}
    (hc : t[p]? = some c) (hne : (c == '-') = false) : emDashAhead t p = false := by
  unfold emDashAhead
  rw [hyphenRunLen_zero hc hne]
  simp

theorem wordTokenEnd_ge (t : List Char) (i : Nat) :
    ∀ (fuel n : Nat), n ≤ wordTokenEnd t i fuel n := by
  intro fuel
  induction fuel with
  | zero => intro n; exact Nat.le_refl n
  | succ f ih =>
    intro n
    rw [wordTokenEnd]
    split
    · exact Nat.le_succ n
    · split
      · exact Nat.le_refl n
      · split
        · exact Nat.le_refl n
        · exact Nat.le_trans (Nat.le_succ n) (ih (n + 1))

theorem wordTokenEnd_chars (t : List Char) (i : Nat) :
    ∀ (fuel n : Nat),
      (∀ m, m < n → ∀ x, t[i + m]? = some x → isPyWS x = false) →
      ∀ m, m < wordTokenEnd t i fuel n → ∀ x, t[i + m]? = some x → isPyWS x = false := by
  intro fuel
  induction fuel with
  | zero => intro n hn m hm; exact hn m hm
  | succ f ih =>
    intro n hn m hm
    rw [wordTokenEnd] at hm
    split at hm
    · rename_i hcond
      rcases Nat.lt_succ_iff_lt_or_eq.mp hm with h | h
      · exact hn m h
      · subst h
        simp only [Bool.and_eq_true] at hcond
        obtain ⟨⟨hA2, _⟩, _⟩ := hcond
        obtain ⟨c, hc, hcb⟩ := testAt_eq_true hA2
        intro x hx
        rw [hc] at hx
        cases hx
        rw [eq_of_beq hcb]
        decide
    · split at hm
      · exact hn m hm
      · split at hm
        · exact hn m hm
        · rename_i hA hws hcd
          refine ih (n + 1) ?_ m hm
          intro m' hm' x hx
          rcases Nat.lt_succ_iff_lt_or_eq.mp hm' with h | h
          · exact hn m' h x hx
          · subst h
            have hws' : (match t[i + m']? with | some c => isPyWS c | none => true) = false := by
              simpa using hws
            obtain ⟨c, hc, hcw⟩ := wsMatch_eq_false hws'
            rw [hc] at hx
            cases hx
            exact hcw

/-! ### Locating a clean run inside the tokenizer's output -/

theorem getElem_append_mid (a r b : List Char) {n : Nat} (hn : n < r.length) :
    (a ++ r ++ b)[a.length + n]? = some r[n] := by
  rw [List.append_assoc, List.getElem?_append_right (Nat.le_add_right a.length n)]
  have h1 : a.length + n - a.length = n := by omega
  rw [h1, List.getElem?_append_left hn]
  exact List.getElem?_eq_getElem hn

theorem getElem_append_end (a r b : List Char) :
    (a ++ r ++ b)[a.length + r.length]? = b[0]? := by
  rw [List.append_assoc, List.getElem?_append_right (Nat.le_add_right a.length r.length)]
  have h1 : a.length + r.length - a.length = r.length := by omega
  rw [h1, List.getElem?_append_right (Nat.le_refl r.length)]
  have h2 : r.length - r.length = 0 := by omega
  rw [h2]

theorem getElem_zero_head (b : List Char) : b[0]? = b.head? := by
  cases b <;> simp

theorem pyWS_not_hyphen {c : Char} (h : isPyWS c = true) : (c == '-') = false := by
  cases hc : c == '-' with
  | false => rfl
  | true =>
    rw [eq_of_beq hc] at h
    exact absurd h (by decide)

theorem wordTokenEnd_run (a r b : List Char)
    (hnws : ∀ c ∈ r, isPyWS c = false) (hnh : ∀ c ∈ r, (c == '-') = false)
    (hb : b = [] ∨ ∃ cf, b.head? = some cf ∧ isPyWS cf = true) :
    ∀ (fuel n : Nat), 1 ≤ n → n ≤ r.length → r.length - n ≤ fuel →
      wordTokenEnd (a ++ r ++ b) a.length fuel n = r.length := by
  intro fuel
  induction fuel with
  | zero =>
    intro n _ h2 h3
    have hn : n = r.length := by omega
    rw [hn]
    rfl
  | succ f ih =>
    intro n h1 h2 h3
    rw [wordTokenEnd]
    rcases Nat.lt_or_ge n r.length with hlt | hge
    · have hgm : (a ++ r ++ b)[a.length + n]? = some r[n] := getElem_append_mid a r b hlt
      have hmem : r[n] ∈ r := List.getElem_mem hlt
      have hAfalse : testAt (a ++ r ++ b) (a.length + n) (fun c => c == '-') = false := by
        rw [testAt_of_getElem hgm]
        exact hnh _ hmem
      have hwsfalse : (match (a ++ r ++ b)[a.length + n]? with
          | some c => isPyWS c | none => true) = false := by
        rw [hgm]
        exact hnws _ hmem
      have hemfalse : emDashAhead (a ++ r ++ b) (a.length + n) = false :=
        emDashAhead_of_nonHyphen hgm (hnh _ hmem)
      rw [if_neg (by rw [hAfalse]; simp only [Bool.false_and]; exact Bool.false_ne_true),
        if_neg (by rw [hwsfalse]; exact Bool.false_ne_true),
        if_neg (by rw [hemfalse]; simp only [Bool.and_false]; exact Bool.false_ne_true)]
      exact ih (n + 1) (by omega) (by omega) (by omega)
    · have hn : n = r.length := Nat.le_antisymm h2 hge
      subst hn
      have hend : (a ++ r ++ b)[a.length + r.length]? = b.head? := by
        rw [getElem_append_end]
        exact getElem_zero_head b
      rcases hb with hbnil | ⟨cf, hcf, hcfws⟩
      · have hnone : (a ++ r ++ b)[a.length + r.length]? = none := by
          rw [hend, hbnil]
          rfl
        have hA : testAt (a ++ r ++ b) (a.length + r.length) (fun c => c == '-') = false := by
          unfold testAt
          rw [hnone]
        rw [if_neg (by rw [hA]; simp only [Bool.false_and]; exact Bool.false_ne_true),
          if_pos (by rw [hnone])]
      · have hsome : (a ++ r ++ b)[a.length + r.length]? = some cf := by
          rw [hend, hcf]
        have hA : testAt (a ++ r ++ b) (a.length + r.length) (fun c => c == '-') = false := by
          rw [testAt_of_getElem hsome]
          exact pyWS_not_hyphen hcfws
        rw [if_neg (by rw [hA]; simp only [Bool.false_and]; exact Bool.false_ne_true),
          if_pos (by rw [hsome]; exact hcfws)]

theorem splitGo_run_mem (a r b : List Char)
    (hr : r ≠ []) (hnws : ∀ c ∈ r, isPyWS c = false) (hnh : ∀ c ∈ r, (c == '-') = false)
    (ha : ∀ cl, a.getLast? = some cl → isPyWS cl = true)
    (hb : b = [] ∨ ∃ cf, b.head? = some cf ∧ isPyWS cf = true) :
    ∀ (fuel i : Nat), i ≤ a.length → (a ++ r ++ b).length - i ≤ fuel →
      r ∈ splitGo (a ++ r ++ b) fuel i := by
  have hrlen : 0 < r.length := List.length_pos.mpr hr
  have hulen : a.length < (a ++ r ++ b).length := by
    simp only [List.length_append]
    omega
  have hr0 : (a ++ r ++ b)[a.length]? = some r[0] := by
    have := getElem_append_mid a r b hrlen
    rwa [Nat.add_zero] at this
  have hr0mem : r[0] ∈ r := List.getElem_mem hrlen
  intro fuel
  induction fuel with
  | zero =>
    intro i hi hfuel
    omega
  | succ f ih =>
    intro i hi hfuel
    rcases Nat.lt_or_ge i a.length with hilt | hige
    · -- strictly inside the whitespace-terminated part `a`
      have hane : a ≠ [] := by
        intro h
        rw [h] at hilt
        simp at hilt
      have hcl := List.getLast?_eq_getLast a hane
      have hclws : isPyWS (a.getLast hane) = true := ha _ hcl
      have hclpos : (a ++ r ++ b)[a.length - 1]? = some (a.getLast hane) := by
        have hm1 : a.length - 1 < a.length := by
          have := List.length_pos.mpr hane
          omega
        have hm2 : a.length - 1 < (a ++ r).length := by
          rw [List.length_append]
          omega
        rw [List.getElem?_append_left hm2, List.getElem?_append_left hm1]
        rw [← List.getLast?_eq_getElem?]
        exact hcl
      have hiu : i < (a ++ r ++ b).length := by omega
      obtain ⟨ci, hci⟩ : ∃ ci, (a ++ r ++ b)[i]? = some ci :=
        ⟨_, List.getElem?_eq_getElem hiu⟩
      rw [splitGo]
      simp only [hci]
      cases hws : isPyWS ci with
      | true =>
        rw [if_pos rfl]
        set k := (((a ++ r ++ b).drop i).takeWhile isPyWS).length with hk
        have hk1 : 0 < k := by
          rcases Nat.eq_zero_or_pos k with h0 | h0
          · exfalso
            have hstop : ((a ++ r ++ b).drop i)[(((a ++ r ++ b).drop i).takeWhile
                isPyWS).length]? = some ci → isPyWS ci = false :=
              takeWhile_stop ((a ++ r ++ b).drop i) ci
            rw [← hk, h0] at hstop
            have : ((a ++ r ++ b).drop i)[0]? = some ci := by
              rw [List.getElem?_drop, Nat.add_zero]
              exact hci
            have := hstop this
            rw [hws] at this
            exact absurd this (by decide)
          · exact h0
        have hkle : i + k ≤ a.length := by
          by_contra hcon
          have hmlt : a.length - i < k := by omega
          obtain ⟨c, hcpos, hcws⟩ := takeWhile_getElem
            (show a.length - i < (((a ++ r ++ b).drop i).takeWhile isPyWS).length by
              rw [← hk]; exact hmlt)
          rw [List.getElem?_drop] at hcpos
          have hidx : i + (a.length - i) = a.length := by omega
          rw [hidx, hr0] at hcpos
          cases hcpos
          rw [hnws _ hr0mem] at hcws
          exact Bool.false_ne_true hcws
        refine List.mem_cons_of_mem _ (ih (i + k) hkle ?_)
        omega
      | false =>
        rw [if_neg Bool.false_ne_true]
        cases hg : decide (1 ≤ i) && testAt (a ++ r ++ b) (i - 1) isWordPunct &&
            emDashAhead (a ++ r ++ b) i with
        | true =>
          rw [if_pos rfl]
          set k := hyphenRunLen (a ++ r ++ b) i with hk
          simp only [Bool.and_eq_true] at hg
          obtain ⟨_, hem⟩ := hg
          unfold emDashAhead at hem
          simp only [Bool.and_eq_true, decide_eq_true_eq] at hem
          have hk2 : 2 ≤ k := hem.1
          have hkle : i + k ≤ a.length := by
            by_contra hcon
            have hmlt : a.length - i < k := by omega
            obtain ⟨c, hcpos, hch⟩ := takeWhile_getElem
              (show a.length - i <
                (((a ++ r ++ b).drop i).takeWhile (fun c => c == '-')).length from hmlt)
            rw [List.getElem?_drop] at hcpos
            have hidx : i + (a.length - i) = a.length := by omega
            rw [hidx, hr0] at hcpos
            cases hcpos
            rw [hnh _ hr0mem] at hch
            exact Bool.false_ne_true hch
          refine List.mem_cons_of_mem _ (ih (i + k) hkle ?_)
          omega
        | false =>
          rw [if_neg Bool.false_ne_true]
          set k := wordTokenEnd (a ++ r ++ b) i (a ++ r ++ b).length 1 with hk
          have hk1 : 1 ≤ k := wordTokenEnd_ge (a ++ r ++ b) i (a ++ r ++ b).length 1
          have hchars := wordTokenEnd_chars (a ++ r ++ b) i (a ++ r ++ b).length 1
            (by
              intro m hm x hx
              have hm0 : m = 0 := by omega
              rw [hm0, Nat.add_zero] at hx
              rw [hci] at hx
              cases hx
              exact hws)
          have hkle : i + k ≤ a.length := by
            by_contra hcon
            have hmlt : a.length - 1 - i < k := by omega
            have hidx : i + (a.length - 1 - i) = a.length - 1 := by omega
            have := hchars (a.length - 1 - i) (by rw [← hk]; exact hmlt)
              (a.getLast hane) (by rw [hidx]; exact hclpos)
            rw [hclws] at this
            exact absurd this (by decide)
          refine List.mem_cons_of_mem _ (ih (i + k) hkle ?_)
          omega
    · -- the run starts here: the word alternative consumes exactly `r`
      have hieq : i = a.length := Nat.le_antisymm hi hige
      subst hieq
      rw [splitGo]
      simp only [hr0]
      have hr0ws : isPyWS r[0] = false := hnws _ hr0mem
      have hem : emDashAhead (a ++ r ++ b) a.length = false :=
        emDashAhead_of_nonHyphen hr0 (hnh _ hr0mem)
      rw [if_neg (by rw [hr0ws]; exact Bool.false_ne_true),
        if_neg (by rw [hem]; simp only [Bool.and_false]; exact Bool.false_ne_true)]
      have hrun : wordTokenEnd (a ++ r ++ b) a.length (a ++ r ++ b).length 1 = r.length := by
        refine wordTokenEnd_run a r b hnws hnh hb (a ++ r ++ b).length 1 (Nat.le_refl 1)
          hrlen ?_
        simp only [List.length_append]
        omega
      rw [hrun]
      have hdrop : (a ++ r ++ b).drop a.length = r ++ b := by
        rw [List.append_assoc]
        exact List.drop_left a (r ++ b)
      rw [hdrop, List.take_left]
      exact List.mem_cons_self r _

/-! ### Structural lemmas on the tokenizer -/

theorem pyStrip_isEmpty_iff (l : List Char) :
    (pyStrip l).isEmpty = true ↔ ∀ x ∈ l, isPyWS x = true := by
  rw [List.isEmpty_iff]
  unfold pyStrip
  rw [List.reverse_eq_nil_iff, List.dropWhile_eq_nil_iff]
  constructor
  · intro h x hx
    have hsplit : l.takeWhile isPyWS ++ l.dropWhile isPyWS = l :=
      List.takeWhile_append_dropWhile isPyWS l
    rw [← hsplit] at hx
    rcases List.mem_append.mp hx with h1 | h1
    · exact List.mem_takeWhile_imp h1
    · exact h x (List.mem_reverse.mpr h1)
  · intro h x hx
    exact h x (List.dropWhile_subset _ (List.mem_reverse.mp hx))

theorem chunkIsBlank_false_of_mem {l : List Char} {x : Char}
    (hx : x ∈ l) (hnws : isPyWS x = false) : chunkIsBlank l = false := by
  unfold chunkIsBlank
  cases hb : (pyStrip l).isEmpty with
  | false => rfl
  | true =>
    have := (pyStrip_isEmpty_iff l).mp hb x hx
    rw [hnws] at this
    exact absurd this (by decide)

theorem drop_cons_of_getElem {t : List Char} {i : Nat} {c : Char}
    (h : t[i]? = some c) : t.drop i = c :: t.drop (i + 1) := by
  obtain ⟨hlt, hc⟩ := List.getElem?_eq_some_iff.mp h
  rw [← hc]
  exact (List.getElem_cons_drop t i hlt).symm

theorem prefix_append_drop {v w : List Char} (h : w <+: v) : w ++ v.drop w.length = v := by
  obtain ⟨tl, htl⟩ := h
  rw [← htl, List.drop_left]

theorem splitGo_flatten (t : List Char) :
    ∀ (fuel i : Nat), t.length - i ≤ fuel → (splitGo t fuel i).flatten = t.drop i := by
  intro fuel
  induction fuel with
  | zero =>
    intro i h
    rw [List.drop_eq_nil_of_le (by omega)]
    rfl
  | succ f ih =>
    intro i h
    rw [splitGo]
    cases hci : t[i]? with
    | none =>
      have hle : t.length ≤ i := by
        by_contra hcon
        have hlt : i < t.length := by omega
        have hsome : t[i]? = some t[i] := List.getElem?_eq_getElem hlt
        rw [hci] at hsome
        cases hsome
      simp only [hci]
      rw [List.drop_eq_nil_of_le hle]
      rfl
    | some c =>
      have hdropc : t.drop i = c :: t.drop (i + 1) := drop_cons_of_getElem hci
      simp only [hci]
      by_cases hws : isPyWS c = true
      · rw [if_pos hws]
        have hk1 : 0 < ((t.drop i).takeWhile isPyWS).length := by
          rw [hdropc, List.takeWhile_cons_of_pos hws]
          simp
        rw [List.flatten_cons, ih (i + ((t.drop i).takeWhile isPyWS).length) (by omega)]
        have hdd : t.drop (i + ((t.drop i).takeWhile isPyWS).length) =
            (t.drop i).drop ((t.drop i).takeWhile isPyWS).length := by
          rw [List.drop_drop]
        rw [hdd]
        exact prefix_append_drop ( List.takeWhile_prefix isPyWS)
      · rw [if_neg hws]
        by_cases hg : (decide (1 ≤ i) && testAt t (i - 1) isWordPunct &&
            emDashAhead t i) = true
        · rw [if_pos hg]
          simp only [Bool.and_eq_true] at hg
          obtain ⟨_, hem⟩ := hg
          unfold emDashAhead at hem
          simp only [Bool.and_eq_true, decide_eq_true_eq] at hem
          have hk1 : 0 < hyphenRunLen t i := by omega
          rw [List.flatten_cons, ih (i + hyphenRunLen t i) (by omega)]
          have hdd : t.drop (i + hyphenRunLen t i) = (t.drop i).drop (hyphenRunLen t i) := by
            rw [List.drop_drop]
          rw [hdd]
          exact List.take_append_drop _ _
        · rw [if_neg hg]
          have hk1 : 1 ≤ wordTokenEnd t i t.length 1 := wordTokenEnd_ge t i t.length 1
          rw [List.flatten_cons, ih (i + wordTokenEnd t i t.length 1) (by omega)]
          have hdd : t.drop (i + wordTokenEnd t i t.length 1) =
              (t.drop i).drop (wordTokenEnd t i t.length 1) := by
            rw [List.drop_drop]
          rw [hdd]
          exact List.take_append_drop _ _

theorem splitChunks_flatten (t : List Char) : (splitChunks t).flatten = t := by
  have h := splitGo_flatten t t.length 0 (by omega)
  rwa [List.drop_zero] at h

theorem splitGo_ne_nil (t : List Char) :
    ∀ (fuel i : Nat) (tok : List Char), tok ∈ splitGo t fuel i → tok ≠ [] := by
  intro fuel
  induction fuel with
  | zero => intro i tok h; exact absurd h (List.not_mem_nil tok)
  | succ f ih =>
    intro i tok h
    rw [splitGo] at h
    cases hci : t[i]? with
    | none =>
      simp only [hci] at h
      exact absurd h (List.not_mem_nil tok)
    | some c =>
      have hdropc : t.drop i = c :: t.drop (i + 1) := drop_cons_of_getElem hci
      simp only [hci] at h
      by_cases hws : isPyWS c = true
      · rw [if_pos hws] at h
        rcases List.mem_cons.mp h with rfl | hmem
        · rw [hdropc, List.takeWhile_cons_of_pos hws]
          simp
        · exact ih _ tok hmem
      · rw [if_neg hws] at h
        by_cases hg : (decide (1 ≤ i) && testAt t (i - 1) isWordPunct &&
            emDashAhead t i) = true
        · rw [if_pos hg] at h
          simp only [Bool.and_eq_true] at hg
          obtain ⟨_, hem⟩ := hg
          unfold emDashAhead at hem
          simp only [Bool.and_eq_true, decide_eq_true_eq] at hem
          rcases List.mem_cons.mp h with rfl | hmem
          · rw [hdropc]
            cases hk : hyphenRunLen t i with
            | zero => omega
            | succ k2 => simp
          · exact ih _ tok hmem
        · rw [if_neg hg] at h
          rcases List.mem_cons.mp h with rfl | hmem
          · have hk1 : 1 ≤ wordTokenEnd t i t.length 1 := wordTokenEnd_ge t i t.length 1
            rw [hdropc]
            cases hk : wordTokenEnd t i t.length 1 with
            | zero => omega
            | succ k2 => simp
          · exact ih _ tok hmem

theorem mem_take_getElem {v : List Char} {k : Nat} {x : Char} (hx : x ∈ v.take k) :
    ∃ m, m < k ∧ v[m]? = some x := by
  obtain ⟨m, hm⟩ := List.mem_iff_getElem?.mp hx
  have hmk : m < k := by
    by_contra hcon
    rw [List.getElem?_take_eq_none (by omega)] at hm
    cases hm
  refine ⟨m, hmk, ?_⟩
  rwa [List.getElem?_take_of_lt hmk] at hm

theorem splitGo_homog (t : List Char) :
    ∀ (fuel i : Nat) (tok : List Char), tok ∈ splitGo t fuel i → chunkHomog tok := by
  intro fuel
  induction fuel with
  | zero => intro i tok h; exact absurd h (List.not_mem_nil tok)
  | succ f ih =>
    intro i tok h
    rw [splitGo] at h
    cases hci : t[i]? with
    | none =>
      simp only [hci] at h
      exact absurd h (List.not_mem_nil tok)
    | some c =>
      simp only [hci] at h
      by_cases hws : isPyWS c = true
      · rw [if_pos hws] at h
        rcases List.mem_cons.mp h with rfl | hmem
        · exact Or.inl (fun x hx => List.mem_takeWhile_imp hx)
        · exact ih _ tok hmem
      · rw [if_neg hws] at h
        have hcnws : isPyWS c = false := by
          cases hcc : isPyWS c with
          | false => rfl
          | true => exact absurd hcc hws
        by_cases hg : (decide (1 ≤ i) && testAt t (i - 1) isWordPunct &&
            emDashAhead t i) = true
        · rw [if_pos hg] at h
          rcases List.mem_cons.mp h with rfl | hmem
          · refine Or.inr (fun x hx => ?_)
            obtain ⟨m, hmk, hmx⟩ := mem_take_getElem hx
            obtain ⟨y, hy, hyh⟩ := takeWhile_getElem
              (show m < ((t.drop i).takeWhile (fun c => c == '-')).length from hmk)
            rw [hy] at hmx
            cases hmx
            rw [eq_of_beq hyh]
            decide
          · exact ih _ tok hmem
        · rw [if_neg hg] at h
          rcases List.mem_cons.mp h with rfl | hmem
          · refine Or.inr (fun x hx => ?_)
            obtain ⟨m, hmk, hmx⟩ := mem_take_getElem hx
            refine wordTokenEnd_chars t i t.length 1 ?_ m hmk x ?_
            · intro m2 hm2 y hy
              have hm0 : m2 = 0 := by omega
              rw [hm0, Nat.add_zero, hci] at hy
              cases hy
              exact hcnws
            · rwa [List.getElem?_drop] at hmx
          · exact ih _ tok hmem

theorem splitGo_infix (t : List Char) :
    ∀ (fuel i : Nat) (tok : List Char), tok ∈ splitGo t fuel i → tok <:+: t := by
  intro fuel
  induction fuel with
  | zero => intro i tok h; exact absurd h (List.not_mem_nil tok)
  | succ f ih =>
    intro i tok h
    rw [splitGo] at h
    cases hci : t[i]? with
    | none =>
      simp only [hci] at h
      exact absurd h (List.not_mem_nil tok)
    | some c =>
      simp only [hci] at h
      have hpre : ∀ w : List Char, w <+: t.drop i → w <:+: t := by
        intro w hw
        obtain ⟨tl, htl⟩ := hw
        refine ⟨t.take i, tl, ?_⟩
        rw [List.append_assoc, htl, List.take_append_drop]
      by_cases hws : isPyWS c = true
      · rw [if_pos hws] at h
        rcases List.mem_cons.mp h with rfl | hmem
        · exact hpre _ ( List.takeWhile_prefix isPyWS)
        · exact ih _ tok hmem
      · rw [if_neg hws] at h
        by_cases hg : (decide (1 ≤ i) && testAt t (i - 1) isWordPunct &&
            emDashAhead t i) = true
        · rw [if_pos hg] at h
          rcases List.mem_cons.mp h with rfl | hmem
          · exact hpre _ (List.take_prefix _ _)
          · exact ih _ tok hmem
        · rw [if_neg hg] at h
          rcases List.mem_cons.mp h with rfl | hmem
          · exact hpre _ (List.take_prefix _ _)
          · exact ih _ tok hmem

theorem splitGo_head_char (t : List Char) :
    ∀ (fuel j : Nat) (tok : List Char) (rest : List (List Char)),
      splitGo t fuel j = tok :: rest → ∃ c, t[j]? = some c ∧ tok.head? = some c := by
  intro fuel j tok rest h
  cases fuel with
  | zero => cases h
  | succ f =>
    rw [splitGo] at h
    cases hci : t[j]? with
    | none =>
      simp only [hci] at h
      cases h
    | some c =>
      simp only [hci] at h
      have hdropc : t.drop j = c :: t.drop (j + 1) := drop_cons_of_getElem hci
      refine ⟨c, rfl, ?_⟩
      by_cases hws : isPyWS c = true
      · rw [if_pos hws] at h
        obtain ⟨htok, -⟩ := List.cons.inj h
        rw [← htok, hdropc, List.takeWhile_cons_of_pos hws]
        rfl
      · rw [if_neg hws] at h
        by_cases hg : (decide (1 ≤ j) && testAt t (j - 1) isWordPunct &&
            emDashAhead t j) = true
        · rw [if_pos hg] at h
          obtain ⟨htok, -⟩ := List.cons.inj h
          simp only [Bool.and_eq_true] at hg
          obtain ⟨-, hem⟩ := hg
          unfold emDashAhead at hem
          simp only [Bool.and_eq_true, decide_eq_true_eq] at hem
          rw [← htok, hdropc]
          cases hk : hyphenRunLen t j with
          | zero => omega
          | succ k => simp
        · rw [if_neg hg] at h
          obtain ⟨htok, -⟩ := List.cons.inj h
          have hk1 : 1 ≤ wordTokenEnd t j t.length 1 := wordTokenEnd_ge t j t.length 1
          rw [← htok, hdropc]
          cases hk : wordTokenEnd t j t.length 1 with
          | zero => omega
          | succ k => simp

theorem splitGo_chain (t : List Char) :
    ∀ (fuel i : Nat),
      List.Chain' (fun x y => ¬(chunkIsBlank x = true ∧ chunkIsBlank y = true))
        (splitGo t fuel i) := by
  intro fuel
  induction fuel with
  | zero => intro i; exact List.chain'_nil
  | succ f ih =>
    intro i
    rw [splitGo]
    cases hci : t[i]? with
    | none =>
      simp only [hci]
      exact List.chain'_nil
    | some c =>
      have hdropc : t.drop i = c :: t.drop (i + 1) := drop_cons_of_getElem hci
      simp only [hci]
      by_cases hws : isPyWS c = true
      · rw [if_pos hws]
        rw [List.chain'_cons']
        refine ⟨?_, ih _⟩
        intro b hb
        cases hnext : splitGo t f (i + ((t.drop i).takeWhile isPyWS).length) with
        | nil =>
          rw [hnext] at hb
          cases hb
        | cons tok rest =>
          rw [hnext] at hb
          simp only [List.head?_cons, Option.mem_def, Option.some.injEq] at hb
          subst hb
          obtain ⟨cb, hcb, hcbh⟩ := splitGo_head_char t f _ tok rest hnext
          have hcbd : (t.drop i)[((t.drop i).takeWhile isPyWS).length]? = some cb := by
            rw [List.getElem?_drop]
            exact hcb
          have hcbnws : isPyWS cb = false := takeWhile_stop (t.drop i) cb hcbd
          have hblank : chunkIsBlank tok = false :=
            chunkIsBlank_false_of_mem (List.mem_of_mem_head? hcbh) hcbnws
          intro hcon
          rw [hblank] at hcon
          exact absurd hcon.2 (by decide)
      · rw [if_neg hws]
        have hcnws : isPyWS c = false := by
          cases hcc : isPyWS c with
          | false => rfl
          | true => exact absurd hcc hws
        by_cases hg : (decide (1 ≤ i) && testAt t (i - 1) isWordPunct &&
            emDashAhead t i) = true
        · rw [if_pos hg]
          rw [List.chain'_cons']
          refine ⟨?_, ih _⟩
          intro b hb
          simp only [Bool.and_eq_true] at hg
          obtain ⟨-, hem⟩ := hg
          unfold emDashAhead at hem
          simp only [Bool.and_eq_true, decide_eq_true_eq] at hem
          have hcmem : c ∈ (t.drop i).take (hyphenRunLen t i) := by
            rw [hdropc]
            cases hk : hyphenRunLen t i with
            | zero => omega
            | succ k => simp
          have hblank : chunkIsBlank ((t.drop i).take (hyphenRunLen t i)) = false :=
            chunkIsBlank_false_of_mem hcmem hcnws
          intro hcon
          rw [hblank] at hcon
          exact absurd hcon.1 (by decide)
        · rw [if_neg hg]
          rw [List.chain'_cons']
          refine ⟨?_, ih _⟩
          intro b hb
          have hk1 : 1 ≤ wordTokenEnd t i t.length 1 := wordTokenEnd_ge t i t.length 1
          have hcmem : c ∈ (t.drop i).take (wordTokenEnd t i t.length 1) := by
            rw [hdropc]
            cases hk : wordTokenEnd t i t.length 1 with
            | zero => omega
            | succ k => simp
          have hblank : chunkIsBlank ((t.drop i).take (wordTokenEnd t i t.length 1)) = false :=
            chunkIsBlank_false_of_mem hcmem hcnws
          intro hcon
          rw [hblank] at hcon
          exact absurd hcon.1 (by decide)

/-! ### Claim C7: exit / quit terminates without a session call -/

/-- C7: for every input line that case-insensitively equals "exit" or "quit",
the loop transitions to the terminal state, prints the farewell, and does not
invoke a session call on that input. -/
theorem exit_quit_terminates (m : String) (factory : Except String ChatSession)
    (send : ChatSession → String → Except String String) (chat : Option ChatSession)
    (input : String) (h : lowerStr input = "exit" ∨ lowerStr input = "quit") :
    (loopStep m factory send chat input).next = LoopState.terminated ∧
    (loopStep m factory send chat input).sent = false ∧
    (loopStep m factory send chat input).output = ["Exiting chat."] := by
  have hnows : ∀ c ∈ input.data, isPyWS c = false := by
    rcases h with h | h
    · exact noWS_of_lower input "exit" h (by decide)
    · exact noWS_of_lower input "quit" h (by decide)
  have hstrip : stripStr input = input := stripStr_eq_self hnows
  rcases h with h | h <;> simp [loopStep, hstrip, h]

/-- Witness for C7 at the concrete input "EXIT". -/
theorem exit_quit_terminates_witness :
    (loopStep "m" (Except.error "x") (fun _ _ => Except.ok "hi")
        (some ⟨"m"⟩) "EXIT").next = LoopState.terminated ∧
    (loopStep "m" (Except.error "x") (fun _ _ => Except.ok "hi")
        (some ⟨"m"⟩) "EXIT").sent = false := by
  have h := exit_quit_terminates "m" (Except.error "x") (fun _ _ => Except.ok "hi")
    (some ⟨"m"⟩) "EXIT" (Or.inl (by decide))
  exact ⟨h.1, h.2.1⟩

/-! ### Claim C1: the "clear" command with a failing factory -/

/-- C1 counterexample: when the factory fails on "clear", the loop's stored
session becomes `none`; it is not the prior session, so the loop's session
state is changed by this error, contrary to the claim. -/
theorem clear_failure_discards_session_cex :
    (loopStep "models/gemini-1.5-flash" (Except.error "boom") (fun _ _ => Except.ok "")
        (some ⟨"models/gemini-1.5-flash"⟩) "clear").next = LoopState.awaiting none ∧
    LoopState.awaiting (none : Option ChatSession) ≠
      LoopState.awaiting (some (⟨"models/gemini-1.5-flash"⟩ : ChatSession)) := by
  constructor
  · rfl
  · decide

/-- C1 amended: when the input strips and lowercases to "clear" and the
session factory fails, the loop's session state becomes absent (the prior
session reference is discarded), no session call is made, and the loop
continues rather than terminating. -/
theorem clear_failure_session_absent (m e : String)
    (send : ChatSession → String → Except String String) (chat : Option ChatSession)
    (input : String) (h : lowerStr (stripStr input) = "clear") :
    (loopStep m (Except.error e) send chat input).next = LoopState.awaiting none ∧
    (loopStep m (Except.error e) send chat input).sent = false ∧
    (loopStep m (Except.error e) send chat input).next ≠ LoopState.terminated := by
  have h1 : lowerStr (stripStr input) ≠ "exit" := by rw [h]; decide
  have h2 : lowerStr (stripStr input) ≠ "quit" := by rw [h]; decide
  simp [loopStep, beq_false_of_ne h1, beq_false_of_ne h2, h,
    createChat_error_session m e]

/-- Witness for the amended C1 at the concrete input "  CLEAR ". -/
theorem clear_failure_session_absent_witness :
    (loopStep "m" (Except.error "boom") (fun _ _ => Except.ok "")
        (some ⟨"m"⟩) "  CLEAR ").next = LoopState.awaiting none ∧
    (loopStep "m" (Except.error "boom") (fun _ _ => Except.ok "")
        (some ⟨"m"⟩) "  CLEAR ").sent = false := by
  have h := clear_failure_session_absent "m" "boom" (fun _ _ => Except.ok "")
    (some ⟨"m"⟩) "  CLEAR " (by decide)
  exact ⟨h.1, h.2.1⟩

/-! ### Claim C3: catalog fallback -/

/-- C3: the catalog fetch returns exactly the three-element fallback list
whenever the remote listing raises, or whenever the two-stage filter yields
an empty result. -/
theorem get_available_models_fallback (remote : Except String (List String))
    (h : (∃ e, remote = Except.error e) ∨
         (∃ names, remote = Except.ok names ∧ (names.filter modelPasses).isEmpty = true)) :
    getAvailableModels remote =
      ["models/gemini-1.5-flash", "models/gemini-1.5-pro", "models/gemini-1.0-pro"] := by
  rcases h with ⟨e, rfl⟩ | ⟨names, rfl, hempty⟩
  · rfl
  · simp [getAvailableModels, hempty]
    rfl

/-- Witness for C3: a raising remote call, and a remote list whose filtered
result is empty. -/
theorem get_available_models_fallback_witness :
    getAvailableModels (Except.error "network down") =
      ["models/gemini-1.5-flash", "models/gemini-1.5-pro", "models/gemini-1.0-pro"] ∧
    getAvailableModels (Except.ok ["models/chat-bison"]) =
      ["models/gemini-1.5-flash", "models/gemini-1.5-pro", "models/gemini-1.0-pro"] :=
  ⟨get_available_models_fallback _ (Or.inl ⟨_, rfl⟩),
   get_available_models_fallback _ (Or.inr ⟨_, rfl, by decide⟩)⟩

/-! ### Claim C4: the filter on a concrete remote list -/

/-- C4: on the remote list with a flash model, an embedding model and a
vision variant, the two-stage filter keeps exactly the flash model. -/
theorem get_available_models_filter_example :
    getAvailableModels (Except.ok
      ["models/gemini-1.5-flash", "models/embedding-001", "models/gemini-1.5-pro-vision"]) =
      ["models/gemini-1.5-flash"] := by
  decide

/-! ### Claim C5: session-factory error handling -/

/-- C5: a creation failure whose text contains both "404" and "not found"
prints the targeted remediation listing the three fallback model names and
returns an absent session; any other creation failure prints the generic
message and likewise returns an absent session. -/
theorem create_chat_error_handling (m e : String) :
    ((containsSub "404" e = true ∧ containsSub "not found" e = true) →
      (createChat m (Except.error e)).2 = none ∧
      (createChat m (Except.error e)).1 = notFoundRemediation m ∧
      ∀ f ∈ fallbackModels, ∃ line ∈ notFoundRemediation m, containsSub f line = true) ∧
    (¬(containsSub "404" e = true ∧ containsSub "not found" e = true) →
      (createChat m (Except.error e)).2 = none ∧
      (createChat m (Except.error e)).1 = ["Error creating chat session: " ++ e]) := by
  constructor
  · rintro ⟨h1, h2⟩
    refine ⟨createChat_error_session m e, by simp [createChat, h1, h2], ?_⟩
    intro f hf
    simp only [fallbackModels, List.mem_cons, List.not_mem_nil, or_false] at hf
    rcases hf with rfl | rfl | rfl
    · exact ⟨"  - models/gemini-1.5-flash (recommended)",
        List.Mem.tail _ (List.Mem.tail _ (List.Mem.head _)), by decide⟩
    · exact ⟨"  - models/gemini-1.5-pro",
        List.Mem.tail _ (List.Mem.tail _ (List.Mem.tail _ (List.Mem.head _))), by decide⟩
    · exact ⟨"  - models/gemini-1.0-pro",
        List.Mem.tail _ (List.Mem.tail _ (List.Mem.tail _ (List.Mem.tail _ (List.Mem.head _)))),
        by decide⟩
  · intro h
    have hfalse : (containsSub "404" e && containsSub "not found" e) = false := by
      cases ha : containsSub "404" e with
      | false => rfl
      | true =>
        cases hb : containsSub "not found" e with
        | false => rfl
        | true => exact absurd ⟨ha, hb⟩ h
    exact ⟨createChat_error_session m e, by simp [createChat, hfalse]⟩

/-- Witness for C5: one 404-not-found error and one generic error. -/
theorem create_chat_error_handling_witness :
    (createChat "m" (Except.error "Error 404: model not found")).2 = none ∧
    (createChat "m" (Except.error "Error 404: model not found")).1 = notFoundRemediation "m" ∧
    (createChat "m" (Except.error "boom")).1 = ["Error creating chat session: " ++ "boom"] := by
  have h1 := (create_chat_error_handling "m" "Error 404: model not found").1
    ⟨by decide, by decide⟩
  have h2 := (create_chat_error_handling "m" "boom").2 (by decide)
  exact ⟨h1.1, h1.2.1, h2.2⟩

/-! ### Claim C6: turn-level error classification -/

/-- C6: a turn-level send failure is classified by its text: with "429" and
"quota" (any case) the rate-limit remediation is printed; with neither
marker, the raw error text is printed verbatim; in both cases the loop
returns to awaiting input. -/
theorem turn_error_classified (m : String) (factory : Except String ChatSession)
    (c : ChatSession) (e input : String)
    (h1 : lowerStr (stripStr input) ≠ "exit") (h2 : lowerStr (stripStr input) ≠ "quit")
    (h3 : lowerStr (stripStr input) ≠ "clear") (h4 : stripStr input ≠ "") :
    ((containsSub "429" e = true ∧ containsSub "quota" (lowerStr e) = true) →
      (loopStep m factory (fun _ _ => Except.error e) (some c) input).output =
        rateLimitMessages ∧
      (loopStep m factory (fun _ _ => Except.error e) (some c) input).next =
        LoopState.awaiting (some c)) ∧
    ((containsSub "429" e = false ∧ containsSub "quota" (lowerStr e) = false) →
      (loopStep m factory (fun _ _ => Except.error e) (some c) input).output =
        [rawErrorMessage e] ∧
      containsSub e (rawErrorMessage e) = true ∧
      (loopStep m factory (fun _ _ => Except.error e) (some c) input).next =
        LoopState.awaiting (some c)) := by
  have hstep : loopStep m factory (fun _ _ => Except.error e) (some c) input =
      { next := LoopState.awaiting (some c), sent := true, output := classifyTurnError e } := by
    simp [loopStep, beq_false_of_ne h1, beq_false_of_ne h2, beq_false_of_ne h3,
      beq_false_of_ne h4]
  constructor
  · rintro ⟨ha, hb⟩
    rw [hstep]
    simp [classifyTurnError, ha, hb]
  · rintro ⟨ha, hb⟩
    rw [hstep]
    refine ⟨by simp [classifyTurnError, ha], ?_, rfl⟩
    have : rawErrorMessage e = "\n\x1b[1;31mError: " ++ e ++ "\x1b[0m\n" := rfl
    rw [this]
    exact containsSub_sandwich e "\n\x1b[1;31mError: " "\x1b[0m\n"

/-- Witness for C6: a quota-marked error and a generic error, both on the
concrete input "hello". -/
theorem turn_error_classified_witness :
    (loopStep "m" (Except.error "f")
        (fun _ _ => Except.error "429 RESOURCE_EXHAUSTED: Quota exceeded")
        (some ⟨"m"⟩) "hello").output = rateLimitMessages ∧
    (loopStep "m" (Except.error "f") (fun _ _ => Except.error "boom")
        (some ⟨"m"⟩) "hello").output = [rawErrorMessage "boom"] := by
  have ha := (turn_error_classified "m" (Except.error "f") ⟨"m"⟩
    "429 RESOURCE_EXHAUSTED: Quota exceeded" "hello"
    (by decide) (by decide) (by decide) (by decide)).1 ⟨by decide, by decide⟩
  have hb := (turn_error_classified "m" (Except.error "f") ⟨"m"⟩ "boom" "hello"
    (by decide) (by decide) (by decide) (by decide)).2 ⟨by decide, by decide⟩
  exact ⟨ha.1, hb.1⟩

/-! ### Lemmas on whitespace munging -/

theorem getLast?_all {l : List Char} {P : Char → Prop} (h : ∀ x ∈ l, P x) :
    ∀ cl, l.getLast? = some cl → P cl := by
  intro cl hcl
  rw [List.getLast?_eq_getElem?] at hcl
  exact h cl (List.getElem?_mem hcl)

theorem munge_char_eq {c : Char} (h : isPyWS c = false) :
    (if isPyWS c then ' ' else c) = c := by
  rw [h]
  rfl

theorem map_munge_nonws_eq {l : List Char} (h : ∀ x ∈ l, isPyWS x = false) :
    l.map (fun c => if isPyWS c then ' ' else c) = l := by
  induction l with
  | nil => rfl
  | cons c rest ih =>
    rw [List.map_cons, munge_char_eq (h c (by simp)), ih (fun x hx => h x (by simp [hx]))]

theorem munge_ws_space {l : List Char} :
    ∀ x ∈ mungeWhitespace l, isPyWS x = true → x = ' ' := by
  intro x hx hws
  obtain ⟨y, _, hfy⟩ := List.mem_map.mp hx
  by_cases hy : isPyWS y = true
  · rw [← hfy, if_pos hy]
  · rw [← hfy] at hws
    rw [if_neg hy] at hws
    exact absurd hws hy

theorem not_tab_nl_cr_of_nonws {c : Char} (h : isPyWS c = false) :
    (c == '\t') = false ∧ ((c == '\n') || (c == '\r')) = false := by
  refine ⟨?_, ?_⟩
  · cases hc : c == '\t' with
    | false => rfl
    | true =>
      rw [eq_of_beq hc] at h
      exact absurd h (by decide)
  · cases hc1 : c == '\n' with
    | true =>
      rw [eq_of_beq hc1] at h
      exact absurd h (by decide)
    | false =>
      cases hc2 : c == '\r' with
      | true =>
        rw [eq_of_beq hc2] at h
        exact absurd h (by decide)
      | false => rfl

theorem expandTabsGo_nonws_eq :
    ∀ (l : List Char) (col : Nat), (∀ x ∈ l, isPyWS x = false) →
      expandTabsGo col l = l := by
  intro l
  induction l with
  | nil => intro col _; rfl
  | cons c rest ih =>
    intro col h
    obtain ⟨h1, h2⟩ := not_tab_nl_cr_of_nonws (h c (by simp))
    rw [expandTabsGo, if_neg (by rw [h1]; exact Bool.false_ne_true),
      if_neg (by rw [h2]; exact Bool.false_ne_true),
      ih (col + 1) (fun x hx => h x (by simp [hx]))]

theorem expandTabsGo_append :
    ∀ (a b : List Char) (col : Nat),
      expandTabsGo col (a ++ b) = expandTabsGo col a ++ expandTabsGo (colAfter col a) b := by
  intro a
  induction a with
  | nil => intro b col; rfl
  | cons c rest ih =>
    intro b col
    rw [List.cons_append, expandTabsGo, expandTabsGo, colAfter]
    by_cases h1 : (c == '\t') = true
    · rw [if_pos h1, if_pos h1, if_pos h1, ih, List.append_assoc]
    · rw [if_neg h1, if_neg h1, if_neg h1]
      by_cases h2 : ((c == '\n') || (c == '\r')) = true
      · rw [if_pos h2, if_pos h2, if_pos h2, ih, List.cons_append]
      · rw [if_neg h2, if_neg h2, if_neg h2, ih, List.cons_append]

theorem expandTabsGo_all_ws :
    ∀ (l : List Char) (col : Nat), (∀ x ∈ l, isPyWS x = true) →
      ∀ x ∈ expandTabsGo col l, isPyWS x = true := by
  intro l
  induction l with
  | nil => intro col _ x hx; cases hx
  | cons c rest ih =>
    intro col h x hx
    have hc : isPyWS c = true := h c (by simp)
    have hrest : ∀ y ∈ rest, isPyWS y = true := fun y hy => h y (by simp [hy])
    rw [expandTabsGo] at hx
    by_cases h1 : (c == '\t') = true
    · rw [if_pos h1] at hx
      rcases List.mem_append.mp hx with hx1 | hx1
      · rw [List.eq_of_mem_replicate hx1]
        rfl
      · exact ih _ hrest x hx1
    · rw [if_neg h1] at hx
      by_cases h2 : ((c == '\n') || (c == '\r')) = true
      · rw [if_pos h2] at hx
        rcases List.mem_cons.mp hx with rfl | hx1
        · exact hc
        · exact ih _ hrest x hx1
      · rw [if_neg h2] at hx
        rcases List.mem_cons.mp hx with rfl | hx1
        · exact hc
        · exact ih _ hrest x hx1

theorem expandTabsGo_ne_nil :
    ∀ (l : List Char) (col : Nat), l ≠ [] → expandTabsGo col l ≠ [] := by
  intro l col hne
  cases l with
  | nil => exact absurd rfl hne
  | cons c rest =>
    rw [expandTabsGo]
    by_cases h1 : (c == '\t') = true
    · rw [if_pos h1]
      intro hcon
      rcases List.append_eq_nil.mp hcon with ⟨hr, -⟩
      have hlen := congrArg List.length hr
      rw [List.length_replicate, List.length_nil] at hlen
      omega
    · rw [if_neg h1]
      by_cases h2 : ((c == '\n') || (c == '\r')) = true
      · rw [if_pos h2]
        exact List.cons_ne_nil c _
      · rw [if_neg h2]
        exact List.cons_ne_nil c _

theorem expandTabsGo_last_ws :
    ∀ (p : List Char) (col : Nat), p ≠ [] →
      (∀ cl, p.getLast? = some cl → isPyWS cl = true) →
      expandTabsGo col p ≠ [] ∧
        (∀ cl, (expandTabsGo col p).getLast? = some cl → isPyWS cl = true) := by
  intro p col hne hlast
  have hsplit : p.dropLast ++ [p.getLast hne] = p := List.dropLast_append_getLast hne
  have hlw : isPyWS (p.getLast hne) = true := hlast _ (List.getLast?_eq_getLast p hne)
  have hblockws : ∀ x ∈ expandTabsGo (colAfter col p.dropLast) [p.getLast hne],
      isPyWS x = true := by
    refine expandTabsGo_all_ws [p.getLast hne] _ ?_
    intro x hx
    rcases List.mem_cons.mp hx with rfl | hx1
    · exact hlw
    · cases hx1
  have hblockne : expandTabsGo (colAfter col p.dropLast) [p.getLast hne] ≠ [] :=
    expandTabsGo_ne_nil _ _ (List.cons_ne_nil _ _)
  have hexp : expandTabsGo col p =
      expandTabsGo col p.dropLast ++ expandTabsGo (colAfter col p.dropLast) [p.getLast hne] := by
    conv_lhs => rw [← hsplit]
    exact expandTabsGo_append p.dropLast [p.getLast hne] col
  constructor
  · rw [hexp]
    intro hcon
    exact hblockne (List.append_eq_nil.mp hcon).2
  · intro cl hcl
    rw [hexp, List.getLast?_append] at hcl
    rw [List.getLast?_eq_getLast _ hblockne] at hcl
    have hcl2 : some ((expandTabsGo (colAfter col p.dropLast) [p.getLast hne]).getLast
        hblockne) = some cl := hcl
    cases hcl2
    exact hblockws _ (List.getLast_mem hblockne)

theorem expandTabsGo_head_ws :
    ∀ (p : List Char) (col : Nat), p ≠ [] →
      (∀ cf, p.head? = some cf → isPyWS cf = true) →
      expandTabsGo col p ≠ [] ∧
        (∀ cf, (expandTabsGo col p).head? = some cf → isPyWS cf = true) := by
  intro p col hne hhead
  cases p with
  | nil => exact absurd rfl hne
  | cons c rest =>
    have hcw : isPyWS c = true := hhead c rfl
    rw [expandTabsGo]
    by_cases h1 : (c == '\t') = true
    · rw [if_pos h1]
      have hn : 0 < 8 - col % 8 := by omega
      cases hm : 8 - col % 8 with
      | zero => omega
      | succ m =>
        rw [List.replicate_succ, List.cons_append]
        refine ⟨List.cons_ne_nil _ _, ?_⟩
        intro cf hcf
        rw [List.head?_cons] at hcf
        cases hcf
        rfl
    · rw [if_neg h1]
      by_cases h2 : ((c == '\n') || (c == '\r')) = true
      · rw [if_pos h2]
        refine ⟨List.cons_ne_nil _ _, ?_⟩
        intro cf hcf
        rw [List.head?_cons] at hcf
        cases hcf
        exact hcw
      · rw [if_neg h2]
        refine ⟨List.cons_ne_nil _ _, ?_⟩
        intro cf hcf
        rw [List.head?_cons] at hcf
        cases hcf
        exact hcw

theorem nonws_prefix_expandTabs :
    ∀ (u : List Char) (col : Nat) (seg : List Char),
      (∀ x ∈ seg, isPyWS x = false) → seg <+: expandTabsGo col u → seg <+: u := by
  intro u
  induction u with
  | nil => intro col seg _ h; exact h
  | cons c rest ih =>
    intro col seg hnws h
    cases seg with
    | nil => exact List.nil_prefix
    | cons y ys =>
      rw [expandTabsGo] at h
      by_cases h1 : (c == '\t') = true
      · rw [if_pos h1] at h
        have hn : 0 < 8 - col % 8 := by omega
        cases hm : 8 - col % 8 with
        | zero => omega
        | succ m =>
          rw [hm, List.replicate_succ, List.cons_append, List.cons_prefix_cons] at h
          obtain ⟨rfl, -⟩ := h
          have hy := hnws ' ' (by simp)
          exact absurd hy (by decide)
      · rw [if_neg h1] at h
        by_cases h2 : ((c == '\n') || (c == '\r')) = true
        · rw [if_pos h2] at h
          rw [List.cons_prefix_cons] at h
          obtain ⟨rfl, -⟩ := h
          have h2d : (y == '\n') = true ∨ (y == '\r') = true := by simpa using h2
          have hcw : isPyWS y = true := by
            rcases h2d with h3 | h3
            · rw [eq_of_beq h3]; rfl
            · rw [eq_of_beq h3]; rfl
          rw [hnws y (by simp)] at hcw
          exact absurd hcw (by decide)
        · rw [if_neg h2] at h
          rw [List.cons_prefix_cons] at h
          obtain ⟨rfl, hys⟩ := h
          rw [List.cons_prefix_cons]
          exact ⟨rfl, ih (col + 1) ys (fun x hx => hnws x (by simp [hx])) hys⟩

theorem nonws_infix_drop_wsblock :
    ∀ (blk : List Char) {E seg : List Char}, seg ≠ [] →
      (∀ x ∈ seg, isPyWS x = false) → (∀ x ∈ blk, isPyWS x = true) →
      seg <:+: blk ++ E → seg <:+: E := by
  intro blk
  induction blk with
  | nil => intro E seg _ _ _ h; simpa using h
  | cons b bs ih =>
    intro E seg hne hnws hblk h
    rw [List.cons_append] at h
    rcases List.infix_cons_iff.mp h with hpre | hinf
    · cases seg with
      | nil => exact absurd rfl hne
      | cons y ys =>
        rw [List.cons_prefix_cons] at hpre
        obtain ⟨rfl, -⟩ := hpre
        have hbw : isPyWS y = true := hblk y (by simp)
        rw [hnws y (by simp)] at hbw
        exact absurd hbw (by decide)
    · exact ih hne hnws (fun x hx => hblk x (by simp [hx])) hinf

theorem nonws_infix_expandTabs :
    ∀ (u : List Char) (col : Nat) (seg : List Char), seg ≠ [] →
      (∀ x ∈ seg, isPyWS x = false) → seg <:+: expandTabsGo col u → seg <:+: u := by
  intro u
  induction u with
  | nil =>
    intro col seg hne _ h
    have h2 : seg <:+: ([] : List Char) := h
    rw [List.infix_nil] at h2
    exact absurd h2 hne
  | cons c rest ih =>
    intro col seg hne hnws h
    rw [expandTabsGo] at h
    by_cases h1 : (c == '\t') = true
    · rw [if_pos h1] at h
      have hseg : seg <:+: expandTabsGo (col + (8 - col % 8)) rest :=
        nonws_infix_drop_wsblock _ hne hnws
          (fun x hx => by rw [List.eq_of_mem_replicate hx]; rfl) h
      exact List.infix_cons (ih _ seg hne hnws hseg)
    · rw [if_neg h1] at h
      by_cases h2 : ((c == '\n') || (c == '\r')) = true
      · rw [if_pos h2] at h
        rcases List.infix_cons_iff.mp h with hpre | hinf
        · cases seg with
          | nil => exact absurd rfl hne
          | cons y ys =>
            rw [List.cons_prefix_cons] at hpre
            obtain ⟨rfl, -⟩ := hpre
            have h2d : (y == '\n') = true ∨ (y == '\r') = true := by simpa using h2
            have hcw : isPyWS y = true := by
              rcases h2d with h3 | h3
              · rw [eq_of_beq h3]; rfl
              · rw [eq_of_beq h3]; rfl
            rw [hnws y (by simp)] at hcw
            exact absurd hcw (by decide)
        · exact List.infix_cons (ih _ seg hne hnws hinf)
      · rw [if_neg h2] at h
        rcases List.infix_cons_iff.mp h with hpre | hinf
        · cases seg with
          | nil => exact absurd rfl hne
          | cons y ys =>
            rw [List.cons_prefix_cons] at hpre
            obtain ⟨rfl, hys⟩ := hpre
            have hys2 : ys <+: rest :=
              nonws_prefix_expandTabs rest (col + 1) ys
                (fun x hx => hnws x (by simp [hx])) hys
            exact List.IsPrefix.isInfix (List.cons_prefix_cons.mpr ⟨rfl, hys2⟩)
        · exact List.infix_cons (ih _ seg hne hnws hinf)

theorem map_munge_eq_of_image_nonws :
    ∀ (l : List Char),
      (∀ x ∈ l.map (fun c => if isPyWS c then ' ' else c), isPyWS x = false) →
      l.map (fun c => if isPyWS c then ' ' else c) = l := by
  intro l
  induction l with
  | nil => intro _; rfl
  | cons c rest ih =>
    intro h
    rw [List.map_cons] at h ⊢
    have hc : isPyWS (if isPyWS c then ' ' else c) = false := h _ (by simp)
    have hcnws : isPyWS c = false := by
      by_cases hcc : isPyWS c = true
      · rw [if_pos hcc] at hc
        exact absurd hc (by decide)
      · cases hcc2 : isPyWS c with
        | false => rfl
        | true => exact absurd hcc2 hcc
    rw [munge_char_eq hcnws, ih (fun x hx => h x (by simp [hx]))]

theorem nonws_infix_map_munge {u seg : List Char}
    (hnws : ∀ x ∈ seg, isPyWS x = false)
    (h : seg <:+: u.map (fun c => if isPyWS c then ' ' else c)) : seg <:+: u := by
  obtain ⟨s, t2, hst⟩ := h
  have hmap : u.map (fun c => if isPyWS c then ' ' else c) = s ++ (seg ++ t2) := by
    rw [← hst, List.append_assoc]
  obtain ⟨u1, u23, hu, hm1, hm23⟩ := List.map_eq_append_iff.mp hmap
  obtain ⟨u2, u3, hu23, hm2, hm3⟩ := List.map_eq_append_iff.mp hm23
  have hu2 : u2.map (fun c => if isPyWS c then ' ' else c) = u2 := by
    refine map_munge_eq_of_image_nonws u2 ?_
    rw [hm2]
    exact hnws
  have hu2seg : u2 = seg := by rw [← hu2, hm2]
  refine ⟨u1, u3, ?_⟩
  rw [List.append_assoc, ← hu2seg, ← hu23, ← hu]

theorem nonws_infix_munge {l seg : List Char} (hne : seg ≠ [])
    (hnws : ∀ x ∈ seg, isPyWS x = false) (h : seg <:+: mungeWhitespace l) :
    seg <:+: l := by
  unfold mungeWhitespace at h
  have h2 : seg <:+: expandTabs l := nonws_infix_map_munge hnws h
  exact nonws_infix_expandTabs l 0 seg hne hnws h2

theorem expandTabsGo_eq_self_of_plain :
    ∀ (l : List Char) (col : Nat),
      (∀ x ∈ l, (x == '\t') = false ∧ ((x == '\n') || (x == '\r')) = false) →
      expandTabsGo col l = l := by
  intro l
  induction l with
  | nil => intro col _; rfl
  | cons c rest ih =>
    intro col h
    obtain ⟨h1, h2⟩ := h c (by simp)
    rw [expandTabsGo, if_neg (by rw [h1]; exact Bool.false_ne_true),
      if_neg (by rw [h2]; exact Bool.false_ne_true),
      ih (col + 1) (fun x hx => h x (by simp [hx]))]

theorem map_munge_eq_self_of_spaces :
    ∀ (l : List Char), (∀ x ∈ l, isPyWS x = true → x = ' ') →
      l.map (fun c => if isPyWS c then ' ' else c) = l := by
  intro l
  induction l with
  | nil => intro _; rfl
  | cons c rest ih =>
    intro h
    rw [List.map_cons, ih (fun x hx hws => h x (by simp [hx]) hws)]
    congr 1
    by_cases hws : isPyWS c = true
    · rw [if_pos hws, h c (by simp) hws]
    · rw [if_neg hws]

theorem munge_eq_self {l : List Char} (h : ∀ x ∈ l, isPyWS x = true → x = ' ') :
    mungeWhitespace l = l := by
  unfold mungeWhitespace
  have hplain : ∀ x ∈ l, (x == '\t') = false ∧ ((x == '\n') || (x == '\r')) = false := by
    intro x hx
    by_cases hws : isPyWS x = true
    · rw [h x hx hws]
      exact ⟨rfl, rfl⟩
    · refine not_tab_nl_cr_of_nonws ?_
      cases hb : isPyWS x with
      | false => rfl
      | true => exact absurd hb hws
  have hexp : expandTabs l = l := expandTabsGo_eq_self_of_plain l 0 hplain
  rw [hexp]
  exact map_munge_eq_self_of_spaces l h

theorem runsBounded_infix {t : List Char} {width : Nat} (h : runsBounded t width = true)
    {seg : List Char} (hinf : seg <:+: t) (hnws : ∀ x ∈ seg, isPyWS x = false) :
    seg.length ≤ width := by
  obtain ⟨s, t2, hst⟩ := hinf
  unfold runsBounded at h
  rw [List.all_eq_true] at h
  have hlen : t.length = s.length + (seg.length + t2.length) := by
    rw [← hst]
    simp [List.length_append]
  have hi : s.length ∈ List.range (t.length + 1) := by
    rw [List.mem_range]
    omega
  have hbound := h _ hi
  rw [decide_eq_true_eq] at hbound
  have hdrop : t.drop s.length = seg ++ t2 := by
    rw [← hst, List.append_assoc, List.drop_left]
  rw [hdrop,
    List.takeWhile_append_of_pos (by intro a ha; rw [hnws a ha]; rfl),
    List.length_append] at hbound
  omega

/-! ### Lemmas on newline splitting and joining -/

theorem splitOnNewline_ne_nil (t : List Char) : splitOnNewline t ≠ [] := by
  cases t with
  | nil => exact List.cons_ne_nil _ _
  | cons c rest =>
    rw [splitOnNewline]
    by_cases h : (c == '\n') = true
    · rw [if_pos h]
      exact List.cons_ne_nil _ _
    · rw [if_neg h]
      cases hs : splitOnNewline rest with
      | nil => exact List.cons_ne_nil _ _
      | cons l ls => exact List.cons_ne_nil _ _

theorem splitOnNewline_noNl_eq (l : List Char) (h : '\n' ∉ l) : splitOnNewline l = [l] := by
  induction l with
  | nil => rfl
  | cons c rest ih =>
    rw [splitOnNewline]
    have hcne : (c == '\n') = false := by
      cases hcc : c == '\n' with
      | false => rfl
      | true =>
        rw [eq_of_beq hcc] at h
        exact absurd (List.mem_cons_self _ _) h
    rw [if_neg (by rw [hcne]; exact Bool.false_ne_true)]
    rw [ih (fun hx => h (by simp [hx]))]

theorem splitOnNewline_append_nl (u v : List Char) :
    splitOnNewline (u ++ '\n' :: v) = splitOnNewline u ++ splitOnNewline v := by
  induction u with
  | nil =>
    rw [List.nil_append]
    conv_lhs => rw [splitOnNewline]
    rw [if_pos (show (('\n' == '\n') = true) from rfl)]
    rfl
  | cons c u2 ih =>
    rw [List.cons_append, splitOnNewline]
    conv_rhs => rw [splitOnNewline]
    by_cases hc : (c == '\n') = true
    · rw [if_pos hc, if_pos hc, ih]
      rfl
    · rw [if_neg hc, if_neg hc, ih]
      cases hs : splitOnNewline u2 with
      | nil => exact absurd hs (splitOnNewline_ne_nil u2)
      | cons l ls => rfl

theorem splitOnNewline_joinNewline :
    ∀ (ls : List (List Char)), ls ≠ [] → (∀ l ∈ ls, '\n' ∉ l) →
      splitOnNewline (joinNewline ls) = ls := by
  intro ls
  induction ls with
  | nil => intro h _; exact absurd rfl h
  | cons l ls2 ih =>
    intro _ hnl
    cases ls2 with
    | nil =>
      rw [joinNewline]
      exact splitOnNewline_noNl_eq l (hnl l (by simp))
    | cons l2 ls3 =>
      rw [joinNewline, splitOnNewline_append_nl, splitOnNewline_noNl_eq l (hnl l (by simp)),
        ih (List.cons_ne_nil _ _) (fun x hx => hnl x (by simp [hx]))]
      rfl

theorem splitOnNewline_head_pre :
    ∀ (post : List Char), ∃ s2 s3 ls, post = s2 ++ s3 ∧ splitOnNewline post = s2 :: ls := by
  intro post
  induction post with
  | nil => exact ⟨[], [], [], rfl, rfl⟩
  | cons c rest ih =>
    by_cases hc : (c == '\n') = true
    · refine ⟨[], c :: rest, splitOnNewline rest, rfl, ?_⟩
      rw [splitOnNewline, if_pos hc]
    · obtain ⟨s2, s3, ls, hps, hsp⟩ := ih
      refine ⟨c :: s2, s3, ls, by rw [List.cons_append, ← hps], ?_⟩
      rw [splitOnNewline, if_neg hc, hsp]

theorem splitOnNewline_head_decomp :
    ∀ (a post : List Char), '\n' ∉ a →
      ∃ s2 s3 ls, post = s2 ++ s3 ∧ splitOnNewline (a ++ post) = (a ++ s2) :: ls := by
  intro a
  induction a with
  | nil =>
    intro post _
    obtain ⟨s2, s3, ls, hps, hsp⟩ := splitOnNewline_head_pre post
    refine ⟨s2, s3, ls, hps, ?_⟩
    simp only [List.nil_append]
    exact hsp
  | cons c a2 ih =>
    intro post hnl
    have hcne : (c == '\n') = false := by
      cases hcc : c == '\n' with
      | false => rfl
      | true =>
        rw [eq_of_beq hcc] at hnl
        exact absurd (List.mem_cons_self _ _) hnl
    obtain ⟨s2, s3, ls, hps, hsp⟩ := ih post (fun hx => hnl (by simp [hx]))
    refine ⟨s2, s3, ls, hps, ?_⟩
    rw [List.cons_append, splitOnNewline,
      if_neg (by rw [hcne]; exact Bool.false_ne_true), hsp]
    rfl

theorem exists_last_split {l : List Char} {x : Char} (h : x ∈ l) :
    ∃ a b, l = a ++ x :: b ∧ x ∉ b := by
  induction l with
  | nil => cases h
  | cons c rest ih =>
    by_cases hx : x ∈ rest
    · obtain ⟨a, b, hab, hnb⟩ := ih hx
      exact ⟨c :: a, b, by rw [hab]; rfl, hnb⟩
    · rcases List.mem_cons.mp h with rfl | hmem
      · exact ⟨[], rest, rfl, hx⟩
      · exact absurd hmem hx

theorem splitOnNewline_locate (pre r post : List Char) (hr : '\n' ∉ r) :
    ∃ line ∈ splitOnNewline (pre ++ r ++ post), ∃ p2 s2,
      line = p2 ++ r ++ s2 ∧ (∃ q, pre = q ++ p2) ∧ (∃ s3, post = s2 ++ s3) ∧
      '\n' ∉ p2 := by
  by_cases hpre : '\n' ∈ pre
  · obtain ⟨preA, preB, hsplit, hnb⟩ := exists_last_split hpre
    have hshape : pre ++ r ++ post = preA ++ '\n' :: (preB ++ r ++ post) := by
      rw [hsplit]
      simp [List.append_assoc]
    rw [hshape, splitOnNewline_append_nl]
    have hnlBR : '\n' ∉ preB ++ r := by
      intro hx
      rcases List.mem_append.mp hx with h1 | h1
      · exact hnb h1
      · exact hr h1
    obtain ⟨s2, s3, ls, hps, hsp⟩ := splitOnNewline_head_decomp (preB ++ r) post hnlBR
    have hBRpost : preB ++ r ++ post = (preB ++ r) ++ post := rfl
    refine ⟨(preB ++ r) ++ s2, ?_, preB, s2, ?_, ⟨preA ++ ['\n'], ?_⟩, ⟨s3, hps⟩, hnb⟩
    · refine List.mem_append_right _ ?_
      rw [hBRpost, hsp]
      exact List.mem_cons_self _ _
    · rw [List.append_assoc]
    · rw [hsplit]
      simp
  · obtain ⟨s2, s3, ls, hps, hsp⟩ := splitOnNewline_head_decomp (pre ++ r) post
      (by
        intro hx
        rcases List.mem_append.mp hx with h1 | h1
        · exact hpre h1
        · exact hr h1)
    refine ⟨(pre ++ r) ++ s2, ?_, pre, s2, ?_, ⟨[], rfl⟩, ⟨s3, hps⟩, hpre⟩
    · rw [hsp]
      exact List.mem_cons_self _ _
    · rw [List.append_assoc]

theorem splitOnNewline_mem_infix (t : List Char) :
    ∀ l ∈ splitOnNewline t, l <:+: t := by
  induction t with
  | nil =>
    intro l hl
    rcases List.mem_cons.mp hl with rfl | h
    · exact List.infix_rfl
    · cases h
  | cons c rest ih =>
    intro l hl
    rw [splitOnNewline] at hl
    by_cases hc : (c == '\n') = true
    · rw [if_pos hc] at hl
      rcases List.mem_cons.mp hl with rfl | h
      · exact ⟨[], c :: rest, rfl⟩
      · exact List.infix_cons (ih l h)
    · rw [if_neg hc] at hl
      cases hs : splitOnNewline rest with
      | nil => exact absurd hs (splitOnNewline_ne_nil rest)
      | cons l0 ls0 =>
        rw [hs] at hl
        rcases List.mem_cons.mp hl with rfl | h
        · obtain ⟨s2, s3, ls, hps, hsp⟩ := splitOnNewline_head_pre rest
          rw [hs] at hsp
          obtain ⟨hl0s, -⟩ := List.cons.inj hsp
          refine ⟨[], s3, ?_⟩
          simp only [List.nil_append, List.cons_append]
          rw [hl0s, ← hps]
        · exact (ih l (by rw [hs]; exact List.mem_cons_of_mem _ h)).trans
            ⟨[c], [], by simp⟩

/-! ### Lemmas on the greedy line filler -/

theorem sumLens_nil : sumLens [] = 0 := rfl

theorem sumLens_cons (c : List Char) (l : List (List Char)) :
    sumLens (c :: l) = c.length + sumLens l := by
  unfold sumLens
  rw [List.map_cons, List.sum_cons]

theorem sumLens_append (a b : List (List Char)) :
    sumLens (a ++ b) = sumLens a + sumLens b := by
  unfold sumLens
  rw [List.map_append, List.sum_append]

theorem sumLens_dropLast_le (l : List (List Char)) : sumLens l.dropLast ≤ sumLens l := by
  by_cases hne : l = []
  · rw [hne]
    exact Nat.le_refl _
  · conv_rhs => rw [← List.dropLast_append_getLast hne]
    rw [sumLens_append]
    exact Nat.le_add_right _ _

theorem length_flatten_sumLens (L : List (List Char)) : L.flatten.length = sumLens L := by
  unfold sumLens
  rw [List.length_flatten]

theorem chunksMeasure_eq (l : List (List Char)) :
    chunksMeasure l = l.length + sumLens l := rfl

theorem flatten_infix_of_mem {L : List (List Char)} {c : List Char} (h : c ∈ L) :
    c <:+: L.flatten := by
  obtain ⟨s, t2, hst⟩ := List.append_of_mem h
  refine ⟨s.flatten, t2.flatten, ?_⟩
  rw [hst, List.flatten_append, List.flatten_cons]
  exact List.append_assoc _ _ _

theorem flatten_getLast_eq :
    ∀ (L : List (List Char)) (lst : List Char), L.getLast? = some lst → lst ≠ [] →
      L.flatten.getLast? = lst.getLast? := by
  intro L
  induction L with
  | nil => intro lst h _; cases h
  | cons a L2 ih =>
    intro lst h hne
    cases L2 with
    | nil =>
      have h2 : some a = some lst := h
      injection h2 with h2
      rw [List.flatten_cons, List.flatten_nil, List.append_nil, h2]
    | cons b L3 =>
      have h2 : (b :: L3).getLast? = some lst := by rwa [List.getLast?_cons_cons] at h
      have hmem : lst ∈ b :: L3 := by
        rw [List.getLast?_eq_getElem?] at h2
        exact List.getElem?_mem h2
      have hfl : (b :: L3).flatten ≠ [] := by
        intro hcon
        have hinf := flatten_infix_of_mem hmem
        rw [hcon, List.infix_nil] at hinf
        exact hne hinf
      rw [List.flatten_cons, List.getLast?_append_of_ne_nil a hfl, ih lst h2 hne]

theorem fillLineGo_spec (width : Nat) :
    ∀ (chs acc : List (List Char)) (curLen : Nat),
      ∃ taken, (fillLineGo width acc curLen chs).1 = acc.reverse ++ taken ∧
        chs = taken ++ (fillLineGo width acc curLen chs).2.2 ∧
        (fillLineGo width acc curLen chs).2.1 = curLen + sumLens taken := by
  intro chs
  induction chs with
  | nil =>
    intro acc curLen
    rw [fillLineGo]
    exact ⟨[], by rw [List.append_nil], rfl, rfl⟩
  | cons c rest ih =>
    intro acc curLen
    rw [fillLineGo]
    by_cases hfit : curLen + c.length ≤ width
    · rw [if_pos hfit]
      obtain ⟨taken, h1, h2, h3⟩ := ih (c :: acc) (curLen + c.length)
      refine ⟨c :: taken, ?_, ?_, ?_⟩
      · rw [h1, List.reverse_cons, List.append_assoc]
        rfl
      · rw [List.cons_append, ← h2]
      · rw [h3, sumLens_cons]
        omega
    · rw [if_neg hfit]
      exact ⟨[], by rw [List.append_nil], rfl, rfl⟩

theorem fillLineGo_le (width : Nat) :
    ∀ (chs acc : List (List Char)) (curLen : Nat), curLen ≤ width →
      (fillLineGo width acc curLen chs).2.1 ≤ width := by
  intro chs
  induction chs with
  | nil =>
    intro acc curLen h
    rw [fillLineGo]
    exact h
  | cons c rest ih =>
    intro acc curLen h
    rw [fillLineGo]
    by_cases hfit : curLen + c.length ≤ width
    · rw [if_pos hfit]
      exact ih (c :: acc) _ hfit
    · rw [if_neg hfit]
      exact h

theorem fillLineGo_stop (width : Nat) :
    ∀ (chs acc : List (List Char)) (curLen : Nat) (c0 : List Char) (cs : List (List Char)),
      (fillLineGo width acc curLen chs).2.2 = c0 :: cs →
      width < (fillLineGo width acc curLen chs).2.1 + c0.length := by
  intro chs
  induction chs with
  | nil =>
    intro acc curLen c0 cs h
    rw [fillLineGo] at h
    have h2 : ([] : List (List Char)) = c0 :: cs := h
    cases h2
  | cons c rest ih =>
    intro acc curLen c0 cs h
    rw [fillLineGo] at h ⊢
    by_cases hfit : curLen + c.length ≤ width
    · rw [if_pos hfit] at h ⊢
      exact ih _ _ c0 cs h
    · rw [if_neg hfit] at h ⊢
      have h2 : c :: rest = c0 :: cs := h
      obtain ⟨hc, -⟩ := List.cons.inj h2
      show width < curLen + c0.length
      rw [← hc]
      omega

theorem fillLineGo_all_fit (width : Nat) :
    ∀ (chs acc : List (List Char)) (curLen : Nat), curLen + sumLens chs ≤ width →
      fillLineGo width acc curLen chs = (acc.reverse ++ chs, curLen + sumLens chs, []) := by
  intro chs
  induction chs with
  | nil =>
    intro acc curLen h
    rw [fillLineGo, List.append_nil, sumLens_nil, Nat.add_zero]
  | cons c rest ih =>
    intro acc curLen h
    have hsl : sumLens (c :: rest) = c.length + sumLens rest := sumLens_cons c rest
    rw [fillLineGo, if_pos (by omega), ih (c :: acc) (curLen + c.length) (by omega),
      List.reverse_cons, List.append_assoc, hsl]
    have hadd : curLen + c.length + sumLens rest = curLen + (c.length + sumLens rest) := by
      omega
    rw [hadd]
    rfl

theorem rfindHyphen_some_le {c : List Char} {e h : Nat} (hh : rfindHyphen c e = some h) :
    h + 1 ≤ min e c.length := by
  unfold rfindHyphen at hh
  cases hf : (c.take e).reverse.findIdx? (fun x => x == '-') with
  | none =>
    rw [hf] at hh
    cases hh
  | some k =>
    rw [hf] at hh
    injection hh with hh
    have hne : c.take e ≠ [] := by
      intro hcon
      rw [hcon] at hf
      simp at hf
    have hlen : 1 ≤ (c.take e).length := List.length_pos.mpr hne
    have hle : (c.take e).length = min e c.length := List.length_take e c
    rw [← hh]
    omega

theorem handleLongWord_eq (width curLen : Nat) (c : List Char) (hw : 0 < width) :
    ∃ e, handleLongWord width curLen c = (c.take e, c.drop e) ∧
      e ≤ width - curLen ∧ (curLen < width → 1 ≤ e) := by
  have hnw : ¬ width < 1 := by omega
  simp only [handleLongWord, if_neg hnw]
  by_cases hsl : width - curLen < c.length
  · rw [if_pos hsl]
    split
    next hh hrf =>
      by_cases hcond : (decide (0 < hh) && (c.take hh).any (fun x => !(x == '-'))) = true
      · rw [if_pos hcond]
        have hb := rfindHyphen_some_le hrf
        have hmin := Nat.min_le_left (width - curLen) c.length
        exact ⟨hh + 1, rfl, by omega, fun _ => by omega⟩
      · rw [if_neg hcond]
        exact ⟨width - curLen, rfl, Nat.le_refl _, fun hlt => by omega⟩
    next hrf =>
      exact ⟨width - curLen, rfl, Nat.le_refl _, fun hlt => by omega⟩
  · rw [if_neg hsl]
    exact ⟨width - curLen, rfl, Nat.le_refl _, fun hlt => by omega⟩

/-! ### Structural lemmas on `buildLine` -/

theorem eq_dropLast_append_getLast {α : Type} {l : List α} {a : α}
    (h : l.getLast? = some a) : l = l.dropLast ++ [a] := by
  have hne : l ≠ [] := by
    intro hcon
    rw [hcon] at h
    cases h
  have hg : l.getLast? = some (l.getLast hne) := List.getLast?_eq_getLast l hne
  rw [hg] at h
  injection h with h
  rw [← h]
  exact (List.dropLast_append_getLast hne).symm

theorem chunkHomog_sub {c d : List Char} (hsub : ∀ x ∈ d, x ∈ c) (h : chunkHomog c) :
    chunkHomog d := by
  rcases h with h | h
  · exact Or.inl (fun x hx => h x (hsub x hx))
  · exact Or.inr (fun x hx => h x (hsub x hx))

theorem blank_iff_all_ws (c : List Char) :
    chunkIsBlank c = true ↔ ∀ x ∈ c, isPyWS x = true := by
  unfold chunkIsBlank
  exact pyStrip_isEmpty_iff c

theorem buildLine_master (width : Nat) (chunks : List (List Char)) (hw : 0 < width) :
    ∃ taken g1 g2,
      sumLens taken ≤ width ∧
      (buildLine width chunks).2 = g2 ∧
      (((buildLine width chunks).1 = g1 ∧
          (∀ lastC, g1.getLast? = some lastC → chunkIsBlank lastC = false)) ∨
        ((buildLine width chunks).1 = g1.dropLast ∧
          ∃ lastC, g1.getLast? = some lastC ∧ chunkIsBlank lastC = true)) ∧
      ((chunks = taken ∧ g1 = taken ∧ g2 = []) ∨
        (∃ c0 cs, chunks = taken ++ c0 :: cs ∧ ¬ width < c0.length ∧ g1 = taken ∧
          g2 = c0 :: cs ∧ width < sumLens taken + c0.length) ∨
        (∃ c0 cs e, chunks = taken ++ c0 :: cs ∧ width < c0.length ∧
          g1 = taken ++ [c0.take e] ∧ g2 = c0.drop e :: cs ∧
          e ≤ width - sumLens taken ∧ (sumLens taken < width → 1 ≤ e) ∧
          width < sumLens taken + c0.length)) := by
  obtain ⟨taken, h1, h2, h3⟩ := fillLineGo_spec width chunks [] 0
  rw [List.reverse_nil, List.nil_append] at h1
  have hfle : (fillLineGo width [] 0 chunks).2.1 ≤ width :=
    fillLineGo_le width chunks [] 0 (Nat.zero_le width)
  have h3' : (fillLineGo width [] 0 chunks).2.1 = sumLens taken := by omega
  have hsb : sumLens taken ≤ width := by omega
  cases hrest : (fillLineGo width [] 0 chunks).2.2 with
  | nil =>
    rw [hrest, List.append_nil] at h2
    refine ⟨taken, taken, [], hsb, ?_⟩
    cases hgl : taken.getLast? with
    | none =>
      have hb : buildLine width chunks = (taken, []) := by
        simp only [buildLine, hrest, h1, hgl]
      rw [hb]
      refine ⟨rfl, Or.inl ⟨rfl, ?_⟩, Or.inl ⟨h2, rfl, rfl⟩⟩
      intro lastC hl
      cases hl
    | some lastC =>
      by_cases hbl : chunkIsBlank lastC = true
      · have hb : buildLine width chunks = (taken.dropLast, []) := by
          simp only [buildLine, hrest, h1, hgl, if_pos hbl]
        rw [hb]
        exact ⟨rfl, Or.inr ⟨rfl, lastC, rfl, hbl⟩, Or.inl ⟨h2, rfl, rfl⟩⟩
      · have hb : buildLine width chunks = (taken, []) := by
          simp only [buildLine, hrest, h1, hgl, if_neg hbl]
        rw [hb]
        refine ⟨rfl, Or.inl ⟨rfl, ?_⟩, Or.inl ⟨h2, rfl, rfl⟩⟩
        intro lastC2 hl
        injection hl with hl
        rw [← hl]
        cases hx : chunkIsBlank lastC with
        | false => rfl
        | true => exact absurd hx hbl
  | cons c0 cs =>
    rw [hrest] at h2
    have hstop : width < (fillLineGo width [] 0 chunks).2.1 + c0.length :=
      fillLineGo_stop width chunks [] 0 c0 cs hrest
    rw [h3'] at hstop
    by_cases hlong : width < c0.length
    · obtain ⟨e, he, he1, he2⟩ :=
        handleLongWord_eq width ((fillLineGo width [] 0 chunks).2.1) c0 hw
      rw [h3'] at he1 he2
      refine ⟨taken, taken ++ [c0.take e], c0.drop e :: cs, hsb, ?_⟩
      have hgl : (taken ++ [c0.take e]).getLast? = some (c0.take e) :=
        List.getLast?_concat _
      by_cases hbl : chunkIsBlank (c0.take e) = true
      · have hb : buildLine width chunks =
            ((taken ++ [c0.take e]).dropLast, c0.drop e :: cs) := by
          simp only [buildLine, hrest, if_pos hlong, he, h1, hgl, if_pos hbl]
        rw [hb]
        exact ⟨rfl, Or.inr ⟨rfl, c0.take e, hgl, hbl⟩,
          Or.inr (Or.inr ⟨c0, cs, e, h2, hlong, rfl, rfl, he1, he2, hstop⟩)⟩
      · have hb : buildLine width chunks =
            (taken ++ [c0.take e], c0.drop e :: cs) := by
          simp only [buildLine, hrest, if_pos hlong, he, h1, hgl, if_neg hbl]
        rw [hb]
        refine ⟨rfl, Or.inl ⟨rfl, ?_⟩,
          Or.inr (Or.inr ⟨c0, cs, e, h2, hlong, rfl, rfl, he1, he2, hstop⟩)⟩
        intro lastC hl
        rw [hgl] at hl
        injection hl with hl
        rw [← hl]
        cases hx : chunkIsBlank (c0.take e) with
        | false => rfl
        | true => exact absurd hx hbl
    · refine ⟨taken, taken, c0 :: cs, hsb, ?_⟩
      cases hgl : taken.getLast? with
      | none =>
        have hb : buildLine width chunks = (taken, c0 :: cs) := by
          simp only [buildLine, hrest, if_neg hlong, h1, hgl]
        rw [hb]
        refine ⟨rfl, Or.inl ⟨rfl, ?_⟩,
          Or.inr (Or.inl ⟨c0, cs, h2, hlong, rfl, rfl, hstop⟩)⟩
        intro lastC hl
        cases hl
      | some lastC =>
        by_cases hbl : chunkIsBlank lastC = true
        · have hb : buildLine width chunks = (taken.dropLast, c0 :: cs) := by
            simp only [buildLine, hrest, if_neg hlong, h1, hgl, if_pos hbl]
          rw [hb]
          exact ⟨rfl, Or.inr ⟨rfl, lastC, rfl, hbl⟩,
            Or.inr (Or.inl ⟨c0, cs, h2, hlong, rfl, rfl, hstop⟩)⟩
        · have hb : buildLine width chunks = (taken, c0 :: cs) := by
            simp only [buildLine, hrest, if_neg hlong, h1, hgl, if_neg hbl]
          rw [hb]
          refine ⟨rfl, Or.inl ⟨rfl, ?_⟩,
            Or.inr (Or.inl ⟨c0, cs, h2, hlong, rfl, rfl, hstop⟩)⟩
          intro lastC2 hl
          injection hl with hl
          rw [← hl]
          cases hx : chunkIsBlank lastC with
          | false => rfl
          | true => exact absurd hx hbl

theorem buildLine_sum_le (width : Nat) (chunks : List (List Char)) (hw : 0 < width) :
    sumLens (buildLine width chunks).1 ≤ width := by
  obtain ⟨taken, g1, g2, hsb, hb2, hb1, hcase⟩ := buildLine_master width chunks hw
  have hg1 : sumLens g1 ≤ width := by
    rcases hcase with ⟨-, hg, -⟩ | ⟨c0, cs, -, -, hg, -, -⟩ |
      ⟨c0, cs, e, -, -, hg, -, he1, -, -⟩
    · rw [hg]; exact hsb
    · rw [hg]; exact hsb
    · rw [hg, sumLens_append, sumLens_cons, sumLens_nil]
      have hlt : (c0.take e).length = min e c0.length := List.length_take e c0
      have hmin := Nat.min_le_left e c0.length
      omega
  rcases hb1 with ⟨hb1, -⟩ | ⟨hb1, -⟩
  · rw [hb1]; exact hg1
  · rw [hb1]
    exact Nat.le_trans (sumLens_dropLast_le g1) hg1

theorem buildLine_measure_lt (width : Nat) (chunks : List (List Char)) (hw : 0 < width)
    (hne : chunks ≠ []) :
    chunksMeasure (buildLine width chunks).2 < chunksMeasure chunks := by
  obtain ⟨taken, g1, g2, hsb, hb2, hb1, hcase⟩ := buildLine_master width chunks hw
  rw [hb2]
  rcases hcase with ⟨hch, -, hg⟩ | ⟨c0, cs, hch, hlong, -, hg, hstop⟩ |
    ⟨c0, cs, e, hch, hlong, -, hg, he1, he2, hstop⟩
  · rw [hg]
    have hlp : 1 ≤ chunks.length := List.length_pos.mpr hne
    rw [chunksMeasure_eq, chunksMeasure_eq]
    simp only [List.length_nil, sumLens_nil]
    omega
  · rw [hg, hch, chunksMeasure_eq, chunksMeasure_eq, List.length_append, sumLens_append,
      List.length_cons, sumLens_cons]
    omega
  · rw [hg, hch, chunksMeasure_eq, chunksMeasure_eq, List.length_append, sumLens_append,
      List.length_cons, List.length_cons, sumLens_cons, sumLens_cons]
    have hld : (c0.drop e).length = c0.length - e := List.length_drop e c0
    by_cases hst : sumLens taken < width
    · have := he2 hst
      omega
    · omega

theorem buildLine_mem (width : Nat) (chunks : List (List Char)) (hw : 0 < width)
    {c : List Char} (hc : c ∈ chunks) (hnb : chunkIsBlank c = false)
    (hlen : c.length ≤ width) :
    c ∈ (buildLine width chunks).1 ∨ c ∈ (buildLine width chunks).2 := by
  obtain ⟨taken, g1, g2, hsb, hb2, hb1, hcase⟩ := buildLine_master width chunks hw
  have hfst : c ∈ g1 → c ∈ (buildLine width chunks).1 := by
    intro hcg
    rcases hb1 with ⟨he, -⟩ | ⟨he, lastC, hgl, hbl⟩
    · rw [he]; exact hcg
    · rw [he]
      have hg1 : g1 = g1.dropLast ++ [lastC] := eq_dropLast_append_getLast hgl
      rw [hg1] at hcg
      rcases List.mem_append.mp hcg with h | h
      · exact h
      · rcases List.mem_singleton.mp h with rfl
        rw [hbl] at hnb
        cases hnb
  rcases hcase with ⟨hch, hg1, hg2⟩ | ⟨c0, cs, hch, hlong, hg1, hg2, -⟩ |
    ⟨c0, cs, e, hch, hlong, hg1, hg2, -, -, -⟩
  · left
    exact hfst (by rw [hg1, ← hch]; exact hc)
  · rw [hch] at hc
    rcases List.mem_append.mp hc with h | h
    · left
      exact hfst (by rw [hg1]; exact h)
    · right
      rw [hb2, hg2]
      exact h
  · rw [hch] at hc
    rcases List.mem_append.mp hc with h | h
    · left
      exact hfst (by rw [hg1]; exact List.mem_append_left _ h)
    · rcases List.mem_cons.mp h with rfl | h2
      · exact absurd hlen (by omega)
      · right
        rw [hb2, hg2]
        exact List.mem_cons_of_mem _ h2

theorem buildLine_chars (width : Nat) (chunks : List (List Char)) (hw : 0 < width)
    {p : Char → Prop} (hall : ∀ c ∈ chunks, ∀ x ∈ c, p x) :
    (∀ c ∈ (buildLine width chunks).1, ∀ x ∈ c, p x) ∧
      (∀ c ∈ (buildLine width chunks).2, ∀ x ∈ c, p x) := by
  obtain ⟨taken, g1, g2, hsb, hb2, hb1, hcase⟩ := buildLine_master width chunks hw
  have hg1a : ∀ c ∈ g1, ∀ x ∈ c, p x := by
    rcases hcase with ⟨hch, hg, -⟩ | ⟨c0, cs, hch, -, hg, -, -⟩ |
      ⟨c0, cs, e, hch, -, hg, -, -, -, -⟩
    · rw [hg, ← hch]; exact hall
    · rw [hg]
      intro c hc
      exact hall c (by rw [hch]; exact List.mem_append_left _ hc)
    · rw [hg]
      intro c hc
      rcases List.mem_append.mp hc with h | h
      · exact hall c (by rw [hch]; exact List.mem_append_left _ h)
      · rcases List.mem_singleton.mp h with rfl
        intro x hx
        exact hall c0
          (by rw [hch]; exact List.mem_append_right _ (List.mem_cons_self _ _)) x
          (List.mem_of_mem_take hx)
  have hg2a : ∀ c ∈ g2, ∀ x ∈ c, p x := by
    rcases hcase with ⟨hch, -, hg⟩ | ⟨c0, cs, hch, -, -, hg, -⟩ |
      ⟨c0, cs, e, hch, -, -, hg, -, -, -⟩
    · rw [hg]
      intro c hc
      cases hc
    · rw [hg]
      intro c hc
      exact hall c (by rw [hch]; exact List.mem_append_right _ hc)
    · rw [hg]
      intro c hc
      rcases List.mem_cons.mp hc with rfl | h
      · intro x hx
        exact hall c0
          (by rw [hch]; exact List.mem_append_right _ (List.mem_cons_self _ _)) x
          (List.mem_of_mem_drop hx)
      · exact hall c
          (by rw [hch]; exact List.mem_append_right _ (List.mem_cons_of_mem _ h))
  constructor
  · rcases hb1 with ⟨he, -⟩ | ⟨he, -⟩
    · rw [he]; exact hg1a
    · rw [he]
      intro c hc
      exact hg1a c ((List.dropLast_sublist g1).subset hc)
  · rw [hb2]; exact hg2a

theorem buildLine_ok_snd (width : Nat) (chunks : List (List Char)) (hw : 0 < width)
    (hok : ChunksOk chunks) : ChunksOk (buildLine width chunks).2 := by
  obtain ⟨taken, g1, g2, hsb, hb2, hb1, hcase⟩ := buildLine_master width chunks hw
  rw [hb2]
  obtain ⟨hmem, hchain⟩ := hok
  rcases hcase with ⟨hch, -, hg⟩ | ⟨c0, cs, hch, -, -, hg, -⟩ |
    ⟨c0, cs, e, hch, hlong, -, hg, he1, -, -⟩
  · rw [hg]
    exact ⟨fun c hc => absurd hc (List.not_mem_nil c), List.chain'_nil⟩
  · rw [hg]
    refine ⟨fun c hc => hmem c (by rw [hch]; exact List.mem_append_right _ hc), ?_⟩
    rw [hch] at hchain
    exact (List.chain'_append.mp hchain).2.1
  · rw [hg]
    have hc0mem : c0 ∈ chunks := by
      rw [hch]
      exact List.mem_append_right _ (List.mem_cons_self _ _)
    have hdl : (c0.drop e).length = c0.length - e := List.length_drop e c0
    have hdnn : c0.drop e ≠ [] := by
      intro hcon
      rw [hcon, List.length_nil] at hdl
      omega
    refine ⟨?_, ?_⟩
    · intro c hc
      rcases List.mem_cons.mp hc with rfl | h
      · exact ⟨hdnn, chunkHomog_sub (fun x hx => List.mem_of_mem_drop hx) (hmem c0 hc0mem).2⟩
      · exact hmem c (by rw [hch]; exact List.mem_append_right _ (List.mem_cons_of_mem _ h))
    · rw [hch] at hchain
      have hcsub := (List.chain'_append.mp hchain).2.1
      rw [List.chain'_cons'] at hcsub ⊢
      obtain ⟨hhead, htail⟩ := hcsub
      refine ⟨?_, htail⟩
      intro y hy
      have hR := hhead y hy
      intro hcon
      obtain ⟨hbA, hbB⟩ := hcon
      refine hR ⟨?_, hbB⟩
      obtain ⟨x, hx⟩ := List.exists_mem_of_ne_nil _ hdnn
      have hxws : isPyWS x = true := (blank_iff_all_ws _).mp hbA x hx
      have hx0 : x ∈ c0 := List.mem_of_mem_drop hx
      rcases (hmem c0 hc0mem).2 with hall | hall
      · exact (blank_iff_all_ws c0).mpr hall
      · rw [hall x hx0] at hxws
        cases hxws

theorem buildLine_keeps_nonblank (width : Nat) (chunks : List (List Char)) (hw : 0 < width)
    (hok : ChunksOk chunks) (hex : ∃ c ∈ chunks, chunkIsBlank c = false) :
    (buildLine width chunks).1 ≠ [] ∨
      ∃ c ∈ (buildLine width chunks).2, chunkIsBlank c = false := by
  obtain ⟨c, hc, hnb⟩ := hex
  obtain ⟨taken, g1, g2, hsb, hb2, hb1, hcase⟩ := buildLine_master width chunks hw
  have hfst : c ∈ g1 → (buildLine width chunks).1 ≠ [] := by
    intro hcg
    rcases hb1 with ⟨he, -⟩ | ⟨he, lastC, hgl, hbl⟩
    · rw [he]
      exact List.ne_nil_of_mem hcg
    · rw [he]
      have hg1 : g1 = g1.dropLast ++ [lastC] := eq_dropLast_append_getLast hgl
      rw [hg1] at hcg
      rcases List.mem_append.mp hcg with h | h
      · exact List.ne_nil_of_mem h
      · rcases List.mem_singleton.mp h with rfl
        rw [hbl] at hnb
        cases hnb
  rcases hcase with ⟨hch, hg1, hg2⟩ | ⟨c0, cs, hch, hlong, hg1, hg2, -⟩ |
    ⟨c0, cs, e, hch, hlong, hg1, hg2, he1, -, -⟩
  · left
    exact hfst (by rw [hg1, ← hch]; exact hc)
  · rw [hch] at hc
    rcases List.mem_append.mp hc with h | h
    · left
      exact hfst (by rw [hg1]; exact h)
    · right
      rw [hb2, hg2]
      exact ⟨c, h, hnb⟩
  · rw [hch] at hc
    rcases List.mem_append.mp hc with h | h
    · left
      exact hfst (by rw [hg1]; exact List.mem_append_left _ h)
    · rcases List.mem_cons.mp h with rfl | h2
      · right
        rw [hb2, hg2]
        have hcmem : c ∈ chunks := by
          rw [hch]
          exact List.mem_append_right _ (List.mem_cons_self _ _)
        have hhom := (hok.1 c hcmem).2
        have hallnws : ∀ x ∈ c, isPyWS x = false := by
          rcases hhom with hall | hall
          · exfalso
            rw [(blank_iff_all_ws c).mpr hall] at hnb
            cases hnb
          · exact hall
        have hdl : (c.drop e).length = c.length - e := List.length_drop e c
        have hdnn : c.drop e ≠ [] := by
          intro hcon
          rw [hcon, List.length_nil] at hdl
          omega
        obtain ⟨x, hx⟩ := List.exists_mem_of_ne_nil _ hdnn
        exact ⟨c.drop e, List.mem_cons_self _ _,
          chunkIsBlank_false_of_mem hx (hallnws x (List.mem_of_mem_drop hx))⟩
      · right
        rw [hb2, hg2]
        exact ⟨c, List.mem_cons_of_mem _ h2, hnb⟩

theorem buildLine_bounded_snd (width : Nat) (chunks : List (List Char)) (hw : 0 < width)
    (hok : ChunksOk chunks) (hbd : ChunksBounded width chunks) :
    ChunksBounded width (buildLine width chunks).2 := by
  obtain ⟨taken, g1, g2, hsb, hb2, hb1, hcase⟩ := buildLine_master width chunks hw
  rw [hb2]
  rcases hcase with ⟨hch, -, hg⟩ | ⟨c0, cs, hch, -, -, hg, -⟩ |
    ⟨c0, cs, e, hch, hlong, -, hg, he1, -, -⟩
  · rw [hg]
    intro c hc
    cases hc
  · rw [hg]
    intro c hc hnws
    exact hbd c (by rw [hch]; exact List.mem_append_right _ hc) hnws
  · rw [hg]
    intro c hc hnws
    rcases List.mem_cons.mp hc with rfl | h
    · exfalso
      have hc0mem : c0 ∈ chunks := by
        rw [hch]
        exact List.mem_append_right _ (List.mem_cons_self _ _)
      have hallws : ∀ x ∈ c0, isPyWS x = true := by
        rcases (hok.1 c0 hc0mem).2 with hall | hall
        · exact hall
        · exfalso
          have := hbd c0 hc0mem hall
          omega
      have hdl : (c0.drop e).length = c0.length - e := List.length_drop e c0
      have hdnn : c0.drop e ≠ [] := by
        intro hcon
        rw [hcon, List.length_nil] at hdl
        omega
      obtain ⟨x, hx⟩ := List.exists_mem_of_ne_nil _ hdnn
      have hA := hnws x hx
      have hB := hallws x (List.mem_of_mem_drop hx)
      rw [hA] at hB
      cases hB
    · exact hbd c
        (by rw [hch]; exact List.mem_append_right _ (List.mem_cons_of_mem _ h)) hnws

theorem last_nonblank_cases (chunks taken rest : List (List Char))
    (hch : chunks = taken ++ rest) (hok : ChunksOk chunks) (b1 : List (List Char))
    (hcase :
      (b1 = taken ∧ (∀ lastC, taken.getLast? = some lastC → chunkIsBlank lastC = false)) ∨
      (b1 = taken.dropLast ∧
        ∃ lastC, taken.getLast? = some lastC ∧ chunkIsBlank lastC = true)) :
    b1 = [] ∨ ((∀ c ∈ b1, c ∈ chunks) ∧
      ∃ lastC, b1.getLast? = some lastC ∧ chunkIsBlank lastC = false) := by
  have hchain :
      List.Chain' (fun a b => ¬(chunkIsBlank a = true ∧ chunkIsBlank b = true)) taken := by
    have hc2 := hok.2
    rw [hch] at hc2
    exact (List.chain'_append.mp hc2).1
  rcases hcase with ⟨hb, hnb⟩ | ⟨hb, lastC, hgl, hbl⟩
  · cases hgl2 : taken.getLast? with
    | none =>
      left
      rw [hb]
      cases htk : taken with
      | nil => rfl
      | cons a l =>
        rw [htk, List.getLast?_eq_getLast _ (List.cons_ne_nil a l)] at hgl2
        cases hgl2
    | some lastC =>
      right
      refine ⟨?_, lastC, by rw [hb]; exact hgl2, hnb lastC hgl2⟩
      intro c hc
      rw [hch]
      exact List.mem_append_left _ (by rw [hb] at hc; exact hc)
  · have htaken : taken = taken.dropLast ++ [lastC] := eq_dropLast_append_getLast hgl
    cases hgl2 : taken.dropLast.getLast? with
    | none =>
      left
      rw [hb]
      cases htk : taken.dropLast with
      | nil => rfl
      | cons a l =>
        rw [htk, List.getLast?_eq_getLast _ (List.cons_ne_nil a l)] at hgl2
        cases hgl2
    | some lastC2 =>
      right
      refine ⟨?_, lastC2, by rw [hb]; exact hgl2, ?_⟩
      · intro c hc
        rw [hb] at hc
        rw [hch]
        exact List.mem_append_left _ ((List.dropLast_sublist taken).subset hc)
      · have hchain2 := hchain
        rw [htaken] at hchain2
        have h3 := (List.chain'_append.mp hchain2).2.2
        have hR := h3 lastC2 hgl2 lastC rfl
        cases hx : chunkIsBlank lastC2 with
        | false => rfl
        | true => exact absurd ⟨hx, hbl⟩ hR

theorem buildLine_fst_good (width : Nat) (chunks : List (List Char)) (hw : 0 < width)
    (hok : ChunksOk chunks) (hbd : ChunksBounded width chunks) :
    (buildLine width chunks).1 = [] ∨
      ((∀ c ∈ (buildLine width chunks).1, c ∈ chunks) ∧
        ∃ lastC, (buildLine width chunks).1.getLast? = some lastC ∧
          chunkIsBlank lastC = false) := by
  obtain ⟨taken, g1, g2, hsb, hb2, hb1, hcase⟩ := buildLine_master width chunks hw
  rcases hcase with ⟨hch, hg1, -⟩ | ⟨c0, cs, hch, hlong, hg1, -, -⟩ |
    ⟨c0, cs, e, hch, hlong, hg1, -, he1, -, -⟩
  · refine last_nonblank_cases chunks taken []
      (by rw [hch, List.append_nil]) hok _ ?_
    rcases hb1 with ⟨he, hnb⟩ | ⟨he, lastC, hgl, hbl⟩
    · exact Or.inl ⟨by rw [he, hg1], by rw [← hg1]; exact hnb⟩
    · exact Or.inr ⟨by rw [he, hg1], lastC, by rw [← hg1]; exact hgl, hbl⟩
  · refine last_nonblank_cases chunks taken (c0 :: cs) hch hok _ ?_
    rcases hb1 with ⟨he, hnb⟩ | ⟨he, lastC, hgl, hbl⟩
    · exact Or.inl ⟨by rw [he, hg1], by rw [← hg1]; exact hnb⟩
    · exact Or.inr ⟨by rw [he, hg1], lastC, by rw [← hg1]; exact hgl, hbl⟩
  · have hc0mem : c0 ∈ chunks := by
      rw [hch]
      exact List.mem_append_right _ (List.mem_cons_self _ _)
    have hallws : ∀ x ∈ c0, isPyWS x = true := by
      rcases (hok.1 c0 hc0mem).2 with hall | hall
      · exact hall
      · exfalso
        have := hbd c0 hc0mem hall
        omega
    have hpieceblank : chunkIsBlank (c0.take e) = true :=
      (blank_iff_all_ws _).mpr (fun x hx => hallws x (List.mem_of_mem_take hx))
    have hglp : g1.getLast? = some (c0.take e) := by
      rw [hg1]
      exact List.getLast?_concat _
    rcases hb1 with ⟨he, hnb⟩ | ⟨he, lastC, hgl, hbl⟩
    · exfalso
      have hcontra := hnb _ hglp
      rw [hpieceblank] at hcontra
      cases hcontra
    · have hdp : g1.dropLast = taken := by
        rw [hg1]
        exact List.dropLast_concat
      refine last_nonblank_cases chunks taken (c0 :: cs) hch hok _ (Or.inl ⟨?_, ?_⟩)
      · rw [he, hdp]
      · intro lastT hglT
        have hchain := hok.2
        rw [hch] at hchain
        have h3 := (List.chain'_append.mp hchain).2.2
        have hR := h3 lastT hglT c0 rfl
        have hc0blank : chunkIsBlank c0 = true := (blank_iff_all_ws _).mpr hallws
        cases hx : chunkIsBlank lastT with
        | false => rfl
        | true => exact absurd ⟨hx, hc0blank⟩ hR

/-! ### Lemmas on the `_wrap_chunks` loop -/

theorem wrapIter_eq (width : Nat) (lines : List (List Char)) (ch : List Char)
    (chs : List (List Char)) :
    ∃ chunks1,
      ((chunks1 = chs ∧ (!lines.isEmpty && chunkIsBlank ch) = true) ∨
        (chunks1 = ch :: chs ∧ (!lines.isEmpty && chunkIsBlank ch) = false)) ∧
      wrapIter width lines ch chs =
        ((if (buildLine width chunks1).1.isEmpty then lines
          else (buildLine width chunks1).1.flatten :: lines),
          (buildLine width chunks1).2) := by
  by_cases hcond : (!lines.isEmpty && chunkIsBlank ch) = true
  · refine ⟨chs, Or.inl ⟨rfl, hcond⟩, ?_⟩
    simp only [wrapIter, if_pos hcond]
  · have hcond2 : (!lines.isEmpty && chunkIsBlank ch) = false := by
      cases hx : (!lines.isEmpty && chunkIsBlank ch) with
      | false => rfl
      | true => exact absurd hx hcond
    refine ⟨ch :: chs, Or.inr ⟨rfl, hcond2⟩, ?_⟩
    simp only [wrapIter, if_neg hcond]

theorem wrapChunksGo_mono (width : Nat) :
    ∀ (fuel : Nat) (lines chunks : List (List Char)) (l : List Char), l ∈ lines →
      l ∈ wrapChunksGo width fuel lines chunks := by
  intro fuel
  induction fuel with
  | zero =>
    intro lines chunks l hl
    rw [wrapChunksGo]
    exact List.mem_reverse.mpr hl
  | succ f ih =>
    intro lines chunks l hl
    cases chunks with
    | nil =>
      rw [wrapChunksGo]
      exact List.mem_reverse.mpr hl
    | cons ch chs =>
      rw [wrapChunksGo]
      refine ih _ _ l ?_
      obtain ⟨chunks1, -, hwi⟩ := wrapIter_eq width lines ch chs
      rw [hwi]
      by_cases hemp : (buildLine width chunks1).1.isEmpty = true
      · rw [if_pos hemp]
        exact hl
      · rw [if_neg hemp]
        exact List.mem_cons_of_mem _ hl

theorem wrapChunksGo_len (width : Nat) (hw : 0 < width) :
    ∀ (fuel : Nat) (lines chunks : List (List Char)),
      (∀ l ∈ lines, l.length ≤ width) →
      ∀ l ∈ wrapChunksGo width fuel lines chunks, l.length ≤ width := by
  intro fuel
  induction fuel with
  | zero =>
    intro lines chunks hlines l hl
    rw [wrapChunksGo] at hl
    exact hlines l (List.mem_reverse.mp hl)
  | succ f ih =>
    intro lines chunks hlines l hl
    cases chunks with
    | nil =>
      rw [wrapChunksGo] at hl
      exact hlines l (List.mem_reverse.mp hl)
    | cons ch chs =>
      rw [wrapChunksGo] at hl
      obtain ⟨chunks1, -, hwi⟩ := wrapIter_eq width lines ch chs
      rw [hwi] at hl
      refine ih _ _ ?_ l hl
      by_cases hemp : (buildLine width chunks1).1.isEmpty = true
      · rw [if_pos hemp]
        exact hlines
      · rw [if_neg hemp]
        intro l2 hl2
        rcases List.mem_cons.mp hl2 with rfl | h
        · rw [length_flatten_sumLens]
          exact buildLine_sum_le width chunks1 hw
        · exact hlines l2 h

theorem wrapChunksGo_chunk_emitted (width : Nat) (hw : 0 < width) :
    ∀ (fuel : Nat) (lines chunks : List (List Char)) (c : List Char),
      c ∈ chunks → chunkIsBlank c = false → c.length ≤ width →
      chunksMeasure chunks < fuel →
      ∃ l ∈ wrapChunksGo width fuel lines chunks, c <:+: l := by
  intro fuel
  induction fuel with
  | zero =>
    intro lines chunks c hc _ _ hfuel
    omega
  | succ f ih =>
    intro lines chunks c hc hnb hlen hfuel
    cases chunks with
    | nil => cases hc
    | cons ch chs =>
      rw [wrapChunksGo]
      obtain ⟨chunks1, hc1, hwi⟩ := wrapIter_eq width lines ch chs
      have hcmem : c ∈ chunks1 := by
        rcases hc1 with ⟨rfl, hcond⟩ | ⟨rfl, -⟩
        · rcases List.mem_cons.mp hc with rfl | h
          · rw [Bool.and_eq_true] at hcond
            rw [hcond.2] at hnb
            cases hnb
          · exact h
        · exact hc
      have hm1 : chunksMeasure chunks1 ≤ chunksMeasure (ch :: chs) := by
        rcases hc1 with ⟨rfl, -⟩ | ⟨rfl, -⟩
        · rw [chunksMeasure_eq, chunksMeasure_eq, List.length_cons, sumLens_cons]
          omega
        · exact Nat.le_refl _
      rw [hwi]
      rcases buildLine_mem width chunks1 hw hcmem hnb hlen with hmem | hmem
      · have hne : (buildLine width chunks1).1 ≠ [] := List.ne_nil_of_mem hmem
        have hemp : (buildLine width chunks1).1.isEmpty = false := by
          cases hx : (buildLine width chunks1).1 with
          | nil => exact absurd hx hne
          | cons a l => rfl
        rw [if_neg (by rw [hemp]; exact Bool.false_ne_true)]
        refine ⟨(buildLine width chunks1).1.flatten, ?_, flatten_infix_of_mem hmem⟩
        exact wrapChunksGo_mono width f _ _ _ (List.mem_cons_self _ _)
      · have hmlt := buildLine_measure_lt width chunks1 hw (List.ne_nil_of_mem hcmem)
        exact ih (if (buildLine width chunks1).1.isEmpty then lines
            else (buildLine width chunks1).1.flatten :: lines)
          (buildLine width chunks1).2 c hmem hnb hlen (by omega)

theorem wrapChunksGo_ne_nil (width : Nat) (hw : 0 < width) :
    ∀ (fuel : Nat) (lines chunks : List (List Char)),
      ChunksOk chunks → chunksMeasure chunks < fuel →
      (lines ≠ [] ∨ ∃ c ∈ chunks, chunkIsBlank c = false) →
      wrapChunksGo width fuel lines chunks ≠ [] := by
  intro fuel
  induction fuel with
  | zero =>
    intro lines chunks _ hfuel _
    omega
  | succ f ih =>
    intro lines chunks hok hfuel hinv
    cases chunks with
    | nil =>
      rw [wrapChunksGo]
      rcases hinv with h | ⟨c, hc, -⟩
      · intro hcon
        rw [List.reverse_eq_nil_iff] at hcon
        exact h hcon
      · cases hc
    | cons ch chs =>
      rw [wrapChunksGo]
      obtain ⟨chunks1, hc1, hwi⟩ := wrapIter_eq width lines ch chs
      have hok1 : ChunksOk chunks1 := by
        rcases hc1 with ⟨rfl, -⟩ | ⟨rfl, -⟩
        · exact ⟨fun c hc => hok.1 c (List.mem_cons_of_mem _ hc), hok.2.tail⟩
        · exact hok
      have hm1 : chunksMeasure chunks1 ≤ chunksMeasure (ch :: chs) := by
        rcases hc1 with ⟨rfl, -⟩ | ⟨rfl, -⟩
        · rw [chunksMeasure_eq, chunksMeasure_eq, List.length_cons, sumLens_cons]
          omega
        · exact Nat.le_refl _
      by_cases hne1 : chunks1 = []
      · have hlne : lines ≠ [] := by
          rcases hc1 with ⟨heq, hcond⟩ | ⟨heq, -⟩
          · rw [Bool.and_eq_true] at hcond
            intro hcon
            rw [hcon] at hcond
            simp at hcond
          · rw [hne1] at heq
            cases heq
        subst hne1
        have hb2 : (buildLine width ([] : List (List Char))).2 = [] := rfl
        have hb1e : (buildLine width ([] : List (List Char))).1.isEmpty = true := rfl
        rw [hwi, hb2, if_pos hb1e]
        refine ih lines []
          ⟨fun c hc => absurd hc (List.not_mem_nil c), List.chain'_nil⟩ ?_ (Or.inl hlne)
        have hgt : 1 ≤ chunksMeasure (ch :: chs) := by
          rw [chunksMeasure_eq, List.length_cons]
          omega
        rw [chunksMeasure_eq]
        simp only [List.length_nil, sumLens_nil]
        omega
      · have hmlt := buildLine_measure_lt width chunks1 hw hne1
        have hinv2 : ((if (buildLine width chunks1).1.isEmpty then lines
            else (buildLine width chunks1).1.flatten :: lines) ≠ [] ∨
            ∃ c ∈ (buildLine width chunks1).2, chunkIsBlank c = false) := by
          rcases hinv with hlne | hex
          · left
            by_cases hemp : (buildLine width chunks1).1.isEmpty = true
            · rw [if_pos hemp]
              exact hlne
            · rw [if_neg hemp]
              exact List.cons_ne_nil _ _
          · have hex1 : ∃ c ∈ chunks1, chunkIsBlank c = false := by
              obtain ⟨c, hc, hnb⟩ := hex
              rcases hc1 with ⟨rfl, hcond⟩ | ⟨rfl, -⟩
              · rcases List.mem_cons.mp hc with rfl | h
                · rw [Bool.and_eq_true] at hcond
                  rw [hcond.2] at hnb
                  cases hnb
                · exact ⟨c, h, hnb⟩
              · exact ⟨c, hc, hnb⟩
            rcases buildLine_keeps_nonblank width chunks1 hw hok1 hex1 with hne | hex2
            · left
              have hemp : (buildLine width chunks1).1.isEmpty = false := by
                cases hx : (buildLine width chunks1).1 with
                | nil => exact absurd hx hne
                | cons a l => rfl
              rw [if_neg (by rw [hemp]; exact Bool.false_ne_true)]
              exact List.cons_ne_nil _ _
            · right
              exact hex2
        rw [hwi]
        exact ih (if (buildLine width chunks1).1.isEmpty then lines
            else (buildLine width chunks1).1.flatten :: lines)
          (buildLine width chunks1).2 (buildLine_ok_snd width chunks1 hw hok1)
          (by omega) hinv2

theorem wrapChunksGo_good (width : Nat) (hw : 0 < width) :
    ∀ (fuel : Nat) (lines chunks : List (List Char)),
      ChunksOk chunks → ChunksBounded width chunks →
      (∀ c ∈ chunks, ∀ x ∈ c, isPyWS x = true → x = ' ') →
      (∀ l ∈ lines, GoodLine width l) →
      ∀ l ∈ wrapChunksGo width fuel lines chunks, GoodLine width l := by
  intro fuel
  induction fuel with
  | zero =>
    intro lines chunks _ _ _ hlines l hl
    rw [wrapChunksGo] at hl
    exact hlines l (List.mem_reverse.mp hl)
  | succ f ih =>
    intro lines chunks hok hbd hsp hlines l hl
    cases chunks with
    | nil =>
      rw [wrapChunksGo] at hl
      exact hlines l (List.mem_reverse.mp hl)
    | cons ch chs =>
      rw [wrapChunksGo] at hl
      obtain ⟨chunks1, hc1, hwi⟩ := wrapIter_eq width lines ch chs
      rw [hwi] at hl
      have hok1 : ChunksOk chunks1 := by
        rcases hc1 with ⟨rfl, -⟩ | ⟨rfl, -⟩
        · exact ⟨fun c hc => hok.1 c (List.mem_cons_of_mem _ hc), hok.2.tail⟩
        · exact hok
      have hbd1 : ChunksBounded width chunks1 := by
        rcases hc1 with ⟨rfl, -⟩ | ⟨rfl, -⟩
        · exact fun c hc => hbd c (List.mem_cons_of_mem _ hc)
        · exact hbd
      have hsp1 : ∀ c ∈ chunks1, ∀ x ∈ c, isPyWS x = true → x = ' ' := by
        rcases hc1 with ⟨rfl, -⟩ | ⟨rfl, -⟩
        · exact fun c hc => hsp c (List.mem_cons_of_mem _ hc)
        · exact hsp
      refine ih (if (buildLine width chunks1).1.isEmpty then lines
          else (buildLine width chunks1).1.flatten :: lines)
        (buildLine width chunks1).2
        (buildLine_ok_snd width chunks1 hw hok1)
        (buildLine_bounded_snd width chunks1 hw hok1 hbd1)
        ((buildLine_chars width chunks1 hw hsp1).2) ?_ l hl
      by_cases hemp : (buildLine width chunks1).1.isEmpty = true
      · rw [if_pos hemp]
        exact hlines
      · rw [if_neg hemp]
        intro l2 hl2
        rcases List.mem_cons.mp hl2 with rfl | h
        · rcases buildLine_fst_good width chunks1 hw hok1 hbd1 with hnil |
            ⟨hmemc, lastC, hgl, hnb⟩
          · exfalso
            rw [hnil] at hemp
            exact hemp rfl
          · have hgl2 := hgl
            rw [List.getLast?_eq_getElem?] at hgl2
            have hlcm : lastC ∈ (buildLine width chunks1).1 := List.getElem?_mem hgl2
            have hlcne : lastC ≠ [] := (hok1.1 lastC (hmemc lastC hlcm)).1
            have hfl : (buildLine width chunks1).1.flatten.getLast? = lastC.getLast? :=
              flatten_getLast_eq _ lastC hgl hlcne
            have hlcnws : ∀ x ∈ lastC, isPyWS x = false := by
              rcases (hok1.1 lastC (hmemc lastC hlcm)).2 with hall | hall
              · exfalso
                rw [(blank_iff_all_ws lastC).mpr hall] at hnb
                cases hnb
              · exact hall
            refine ⟨?_, ?_, ?_, ?_⟩
            · intro hcon
              have hinf := flatten_infix_of_mem hlcm
              rw [hcon, List.infix_nil] at hinf
              exact hlcne hinf
            · rw [length_flatten_sumLens]
              exact buildLine_sum_le width chunks1 hw
            · cases hlc : lastC.getLast? with
              | none =>
                exfalso
                cases hlx : lastC with
                | nil => exact hlcne hlx
                | cons a l2x =>
                  rw [hlx, List.getLast?_eq_getLast _ (List.cons_ne_nil a l2x)] at hlc
                  cases hlc
              | some lc =>
                have hlcm2 : lc ∈ lastC := by
                  have hlc2 := hlc
                  rw [List.getLast?_eq_getElem?] at hlc2
                  exact List.getElem?_mem hlc2
                exact ⟨lc, by rw [hfl, hlc], hlcnws lc hlcm2⟩
            · intro x hx hws
              obtain ⟨c2, hc2, hxc⟩ := List.mem_flatten.mp hx
              exact (buildLine_chars width chunks1 hw hsp1).1 c2 hc2 x hxc hws
        · exact hlines l2 h

/-! ### `textwrap.wrap` level lemmas -/

theorem wrapChunksGo_chars (width : Nat) (hw : 0 < width) {p : Char → Prop} :
    ∀ (fuel : Nat) (lines chunks : List (List Char)),
      (∀ c ∈ chunks, ∀ x ∈ c, p x) →
      (∀ l ∈ lines, ∀ x ∈ l, p x) →
      ∀ l ∈ wrapChunksGo width fuel lines chunks, ∀ x ∈ l, p x := by
  intro fuel
  induction fuel with
  | zero =>
    intro lines chunks _ hlines l hl
    rw [wrapChunksGo] at hl
    exact hlines l (List.mem_reverse.mp hl)
  | succ f ih =>
    intro lines chunks hch hlines l hl
    cases chunks with
    | nil =>
      rw [wrapChunksGo] at hl
      exact hlines l (List.mem_reverse.mp hl)
    | cons ch chs =>
      rw [wrapChunksGo] at hl
      obtain ⟨chunks1, hc1, hwi⟩ := wrapIter_eq width lines ch chs
      rw [hwi] at hl
      have hch1 : ∀ c ∈ chunks1, ∀ x ∈ c, p x := by
        rcases hc1 with ⟨rfl, -⟩ | ⟨rfl, -⟩
        · exact fun c hc => hch c (List.mem_cons_of_mem _ hc)
        · exact hch
      refine ih (if (buildLine width chunks1).1.isEmpty then lines
          else (buildLine width chunks1).1.flatten :: lines)
        (buildLine width chunks1).2 ((buildLine_chars width chunks1 hw hch1).2) ?_ l hl
      by_cases hemp : (buildLine width chunks1).1.isEmpty = true
      · rw [if_pos hemp]
        exact hlines
      · rw [if_neg hemp]
        intro l2 hl2
        rcases List.mem_cons.mp hl2 with rfl | h
        · intro x hx
          obtain ⟨c2, hc2, hxc⟩ := List.mem_flatten.mp hx
          exact (buildLine_chars width chunks1 hw hch1).1 c2 hc2 x hxc
        · exact hlines l2 h

theorem textwrapWrap_len (l : List Char) (width : Nat) (hw : 0 < width) :
    ∀ line ∈ textwrapWrap l width, line.length ≤ width := by
  intro line hline
  unfold textwrapWrap at hline
  exact wrapChunksGo_len width hw _ [] _
    (fun l2 hl2 => absurd hl2 (List.not_mem_nil l2)) line hline

theorem splitChunks_ok (t : List Char) : ChunksOk (splitChunks t) := by
  refine ⟨?_, ?_⟩
  · intro c hc
    exact ⟨splitGo_ne_nil t t.length 0 c hc, splitGo_homog t t.length 0 c hc⟩
  · exact splitGo_chain t t.length 0

theorem mem_expandTabsGo_of_nonws :
    ∀ (l : List Char) (col : Nat) (x : Char), x ∈ l → isPyWS x = false →
      x ∈ expandTabsGo col l := by
  intro l
  induction l with
  | nil =>
    intro col x hx _
    cases hx
  | cons c rest ih =>
    intro col x hx hnws
    rw [expandTabsGo]
    by_cases h1 : (c == '\t') = true
    · rw [if_pos h1]
      rcases List.mem_cons.mp hx with heq | h
      · exfalso
        rw [heq, eq_of_beq h1] at hnws
        exact absurd hnws (by decide)
      · exact List.mem_append_right _ (ih _ x h hnws)
    · rw [if_neg h1]
      by_cases h2 : ((c == '\n') || (c == '\r')) = true
      · rw [if_pos h2]
        rcases List.mem_cons.mp hx with heq | h
        · rw [heq]
          exact List.mem_cons_self _ _
        · exact List.mem_cons_of_mem _ (ih _ x h hnws)
      · rw [if_neg h2]
        rcases List.mem_cons.mp hx with heq | h
        · rw [heq]
          exact List.mem_cons_self _ _
        · exact List.mem_cons_of_mem _ (ih _ x h hnws)

theorem mem_munge_of_nonws {l : List Char} {x : Char} (hx : x ∈ l)
    (hnws : isPyWS x = false) : x ∈ mungeWhitespace l := by
  unfold mungeWhitespace
  have hexp : x ∈ expandTabs l := mem_expandTabsGo_of_nonws l 0 x hx hnws
  refine List.mem_map.mpr ⟨x, hexp, ?_⟩
  rw [if_neg (by rw [hnws]; exact Bool.false_ne_true)]

theorem exists_nonws_of_nonblank {l : List Char} (h : (pyStrip l).isEmpty = false) :
    ∃ x ∈ l, isPyWS x = false := by
  by_contra hcon
  push_neg at hcon
  have hall : ∀ x ∈ l, isPyWS x = true := by
    intro x hx
    cases hb : isPyWS x with
    | true => rfl
    | false => exact absurd hb (hcon x hx)
  rw [(pyStrip_isEmpty_iff l).mpr hall] at h
  cases h

theorem splitChunks_exists_nonblank {l : List Char} (h : (pyStrip l).isEmpty = false) :
    ∃ c ∈ splitChunks (mungeWhitespace l), chunkIsBlank c = false := by
  obtain ⟨x, hx, hnws⟩ := exists_nonws_of_nonblank h
  have hxm : x ∈ mungeWhitespace l := mem_munge_of_nonws hx hnws
  have hxf : x ∈ (splitChunks (mungeWhitespace l)).flatten := by
    rw [splitChunks_flatten]
    exact hxm
  obtain ⟨c, hc, hxc⟩ := List.mem_flatten.mp hxf
  exact ⟨c, hc, chunkIsBlank_false_of_mem hxc hnws⟩

theorem textwrapWrap_ne_nil (l : List Char) (width : Nat) (hw : 0 < width)
    (h : (pyStrip l).isEmpty = false) : textwrapWrap l width ≠ [] := by
  unfold textwrapWrap
  exact wrapChunksGo_ne_nil width hw _ [] _ (splitChunks_ok _) (by omega)
    (Or.inr (splitChunks_exists_nonblank h))

theorem splitChunks_bounded {t : List Char} {width : Nat} (h : runsBounded t width = true) :
    ChunksBounded width (splitChunks (mungeWhitespace t)) := by
  intro c hc hnws
  have hne : c ≠ [] := splitGo_ne_nil _ _ _ c hc
  have hinf : c <:+: mungeWhitespace t := splitGo_infix _ _ _ c hc
  have hinf2 : c <:+: t := nonws_infix_munge hne hnws hinf
  exact runsBounded_infix h hinf2 hnws

theorem splitChunks_space (t : List Char) :
    ∀ c ∈ splitChunks (mungeWhitespace t), ∀ x ∈ c, isPyWS x = true → x = ' ' := by
  intro c hc x hx hws
  have hxm : x ∈ mungeWhitespace t := by
    rw [← splitChunks_flatten (mungeWhitespace t)]
    exact List.mem_flatten.mpr ⟨c, hc, hx⟩
  exact munge_ws_space x hxm hws

theorem munge_no_newline (t : List Char) : ∀ x ∈ mungeWhitespace t, x ≠ '\n' := by
  intro x hx
  by_cases hws : isPyWS x = true
  · rw [munge_ws_space x hx hws]
    decide
  · intro hcon
    rw [hcon] at hws
    exact hws (by decide)

theorem textwrapWrap_good (l : List Char) (width : Nat) (hw : 0 < width)
    (hb : runsBounded l width = true) :
    ∀ line ∈ textwrapWrap l width, GoodLine width line := by
  intro line hline
  unfold textwrapWrap at hline
  exact wrapChunksGo_good width hw _ [] _ (splitChunks_ok _) (splitChunks_bounded hb)
    (splitChunks_space l) (fun l2 hl2 => absurd hl2 (List.not_mem_nil l2)) line hline

theorem textwrapWrap_chars (l : List Char) (width : Nat) (hw : 0 < width)
    {p : Char → Prop} (hall : ∀ x ∈ mungeWhitespace l, p x) :
    ∀ line ∈ textwrapWrap l width, ∀ x ∈ line, p x := by
  intro line hline
  unfold textwrapWrap at hline
  refine wrapChunksGo_chars width hw _ [] _ ?_
    (fun l2 hl2 => absurd hl2 (List.not_mem_nil l2)) line hline
  intro c hc x hx
  refine hall x ?_
  rw [← splitChunks_flatten (mungeWhitespace l)]
  exact List.mem_flatten.mpr ⟨c, hc, hx⟩

theorem textwrapWrap_singleton (line : List Char) (width : Nat) (hw : 0 < width)
    (hgood : GoodLine width line) : textwrapWrap line width = [line] := by
  obtain ⟨hne, hlen, ⟨lc, hlc, hlcnws⟩, hsp⟩ := hgood
  have hmg : mungeWhitespace line = line := munge_eq_self hsp
  unfold textwrapWrap
  rw [hmg]
  have hflat : (splitChunks line).flatten = line := splitChunks_flatten line
  have hsum : sumLens (splitChunks line) = line.length := by
    rw [← length_flatten_sumLens, hflat]
  have hchne : splitChunks line ≠ [] := by
    intro hcon
    rw [hcon] at hflat
    exact hne hflat.symm
  have hlastC : ∃ lastChunk, (splitChunks line).getLast? = some lastChunk ∧
      chunkIsBlank lastChunk = false := by
    cases hgl : (splitChunks line).getLast? with
    | none =>
      exfalso
      cases hx : splitChunks line with
      | nil => exact hchne hx
      | cons a l2 =>
        rw [hx, List.getLast?_eq_getLast _ (List.cons_ne_nil a l2)] at hgl
        cases hgl
    | some lastChunk =>
      refine ⟨lastChunk, rfl, ?_⟩
      have hm : lastChunk ∈ splitChunks line := by
        have hgl2 := hgl
        rw [List.getLast?_eq_getElem?] at hgl2
        exact List.getElem?_mem hgl2
      have hlcne2 : lastChunk ≠ [] := splitGo_ne_nil _ _ _ _ hm
      have hfl2 : line.getLast? = lastChunk.getLast? := by
        rw [← hflat]
        exact flatten_getLast_eq _ lastChunk hgl hlcne2
      have hlcl : lastChunk.getLast? = some lc := by
        rw [← hfl2]
        exact hlc
      have hlcm : lc ∈ lastChunk := by
        rw [List.getLast?_eq_getElem?] at hlcl
        exact List.getElem?_mem hlcl
      exact chunkIsBlank_false_of_mem hlcm hlcnws
  obtain ⟨lastChunk, hgl, hlnb⟩ := hlastC
  cases hchs : splitChunks line with
  | nil => exact absurd hchs hchne
  | cons ch chs =>
    rw [wrapChunksGo]
    obtain ⟨chunks1, hc1, hwi⟩ := wrapIter_eq width ([] : List (List Char)) ch chs
    rw [hwi]
    have hchunks1 : chunks1 = ch :: chs := by
      rcases hc1 with ⟨-, hcond⟩ | ⟨heq, -⟩
      · simp at hcond
      · exact heq
    rw [hchunks1]
    have hsum2 : sumLens (ch :: chs) = line.length := by
      rw [← hchs]
      exact hsum
    have hfit : 0 + sumLens (ch :: chs) ≤ width := by omega
    have hfill := fillLineGo_all_fit width (ch :: chs) [] 0 hfit
    rw [List.reverse_nil, List.nil_append] at hfill
    have hglch : (ch :: chs).getLast? = some lastChunk := by
      rw [← hchs]
      exact hgl
    have hb : buildLine width (ch :: chs) = (ch :: chs, []) := by
      simp only [buildLine, hfill, hglch,
        if_neg (show ¬chunkIsBlank lastChunk = true by rw [hlnb]; exact Bool.false_ne_true)]
    rw [hb, if_neg (by rw [List.isEmpty_cons]; exact Bool.false_ne_true)]
    have hflat2 : (ch :: chs).flatten = line := by
      rw [← hchs]
      exact hflat
    rw [hflat2]
    have hm1 : 1 ≤ chunksMeasure (ch :: chs) := by
      rw [chunksMeasure_eq, List.length_cons]
      omega
    cases hmm : chunksMeasure (ch :: chs) with
    | zero => omega
    | succ k =>
      rw [wrapChunksGo, List.reverse_cons, List.reverse_nil, List.nil_append]

theorem wrapTextLines_no_nl (t : List Char) (width : Nat) (hw : 0 < width) :
    ∀ l2 ∈ wrapTextLines t width, '\n' ∉ l2 := by
  intro l2 hl2
  unfold wrapTextLines at hl2
  obtain ⟨l, hl, hstep⟩ := List.mem_flatMap.mp hl2
  by_cases hblank : (pyStrip l).isEmpty = true
  · rw [if_pos hblank] at hstep
    rcases List.mem_singleton.mp hstep with rfl
    exact List.not_mem_nil _
  · rw [if_neg hblank] at hstep
    have hchars : ∀ x ∈ l2, x ≠ '\n' :=
      textwrapWrap_chars l width hw (munge_no_newline l) l2 hstep
    intro hcon
    exact hchars '\n' hcon rfl

theorem wrapTextLines_ne_nil (t : List Char) (width : Nat) (hw : 0 < width) :
    wrapTextLines t width ≠ [] := by
  unfold wrapTextLines
  cases hsp : splitOnNewline t with
  | nil => exact absurd hsp (splitOnNewline_ne_nil t)
  | cons l0 ls =>
    rw [List.flatMap_cons]
    intro hcon
    rw [List.append_eq_nil] at hcon
    obtain ⟨h1, -⟩ := hcon
    by_cases hblank : (pyStrip l0).isEmpty = true
    · rw [if_pos hblank] at h1
      cases h1
    · rw [if_neg hblank] at h1
      have hbf : (pyStrip l0).isEmpty = false := by
        cases hx : (pyStrip l0).isEmpty with
        | false => rfl
        | true => exact absurd hx hblank
      exact textwrapWrap_ne_nil l0 width hw hbf h1

theorem wrapText_split_eq (t : List Char) (width : Nat) (hw : 0 < width) :
    splitOnNewline (wrapText t width) = wrapTextLines t width := by
  unfold wrapText
  exact splitOnNewline_joinNewline (wrapTextLines t width)
    (wrapTextLines_ne_nil t width hw) (wrapTextLines_no_nl t width hw)

theorem runsBounded_mono_infix {t l : List Char} {width : Nat}
    (h : runsBounded t width = true) (hinf : l <:+: t) : runsBounded l width = true := by
  unfold runsBounded
  rw [List.all_eq_true]
  intro i hi
  rw [decide_eq_true_eq]
  have hnws : ∀ x ∈ (l.drop i).takeWhile (fun c => !isPyWS c), isPyWS x = false := by
    intro x hx
    have hxt := List.mem_takeWhile_imp hx
    cases hb : isPyWS x with
    | false => rfl
    | true =>
      rw [hb] at hxt
      exact absurd hxt (by decide)
  have hppre : (l.drop i).takeWhile (fun c => !isPyWS c) <+: l.drop i :=
    List.takeWhile_prefix _
  have hpinf : (l.drop i).takeWhile (fun c => !isPyWS c) <:+: l.drop i :=
    List.IsPrefix.isInfix hppre
  have hsinf : l.drop i <:+: l := List.IsSuffix.isInfix (List.drop_suffix i l)
  have hseginf : (l.drop i).takeWhile (fun c => !isPyWS c) <:+: l := hpinf.trans hsinf
  exact runsBounded_infix h (hseginf.trans hinf) hnws

theorem flatMap_eq_self {α : Type} (f : α → List α) :
    ∀ (l : List α), (∀ x ∈ l, f x = [x]) → l.flatMap f = l := by
  intro l
  induction l with
  | nil => intro _; rfl
  | cons a l2 ih =>
    intro h
    rw [List.flatMap_cons, h a (List.mem_cons_self _ _),
      ih (fun x hx => h x (List.mem_cons_of_mem _ hx))]
    rfl

/-! ### Locating a word of the input in the wrapped output -/

theorem munge_run_decomp (u r v : List Char) (hr : r ≠ [])
    (hnws : ∀ x ∈ r, isPyWS x = false)
    (hu : ∀ cl, u.getLast? = some cl → isPyWS cl = true)
    (hv : ∀ cf, v.head? = some cf → isPyWS cf = true) :
    ∃ A B, mungeWhitespace (u ++ r ++ v) = A ++ r ++ B ∧
      (∀ cl, A.getLast? = some cl → isPyWS cl = true) ∧
      (B = [] ∨ ∃ cf, B.head? = some cf ∧ isPyWS cf = true) := by
  have hE2 : expandTabsGo (colAfter 0 u) r = r := expandTabsGo_nonws_eq r _ hnws
  refine ⟨(expandTabsGo 0 u).map (fun c => if isPyWS c then ' ' else c),
    (expandTabsGo (colAfter 0 (u ++ r)) v).map (fun c => if isPyWS c then ' ' else c),
    ?_, ?_, ?_⟩
  · unfold mungeWhitespace expandTabs
    rw [expandTabsGo_append, expandTabsGo_append, hE2, List.map_append, List.map_append,
      map_munge_nonws_eq hnws]
  · intro cl hcl
    rw [List.getLast?_map] at hcl
    cases hgl : (expandTabsGo 0 u).getLast? with
    | none =>
      rw [hgl] at hcl
      cases hcl
    | some y =>
      rw [hgl, Option.map_some'] at hcl
      injection hcl with h
      have hune : u ≠ [] := by
        intro hcon
        have h0 : (expandTabsGo 0 ([] : List Char)).getLast? = none := rfl
        rw [hcon, h0] at hgl
        cases hgl
      have hws := (expandTabsGo_last_ws u 0 hune hu).2 y hgl
      rw [← h, if_pos hws]
      decide
  · cases hvn : v with
    | nil =>
      left
      rfl
    | cons c0 v2 =>
      right
      have hv2 : ∀ cf, (c0 :: v2).head? = some cf → isPyWS cf = true := by
        intro cf hcf
        refine hv cf ?_
        rw [hvn]
        exact hcf
      obtain ⟨hEne, hEhead⟩ :=
        expandTabsGo_head_ws (c0 :: v2) (colAfter 0 (u ++ r)) (List.cons_ne_nil c0 v2) hv2
      cases hh : (expandTabsGo (colAfter 0 (u ++ r)) (c0 :: v2)).head? with
      | none =>
        exfalso
        cases hEx : expandTabsGo (colAfter 0 (u ++ r)) (c0 :: v2) with
        | nil => exact hEne hEx
        | cons a l2 =>
          rw [hEx, List.head?_cons] at hh
          cases hh
      | some y =>
        have hws := hEhead y hh
        refine ⟨(if isPyWS y then ' ' else y), ?_, ?_⟩
        · rw [List.head?_map, hh]
          rfl
        · rw [if_pos hws]
          decide

theorem splitChunks_run_mem (u r v : List Char) (hr : r ≠ [])
    (hnws : ∀ x ∈ r, isPyWS x = false) (hnh : ∀ x ∈ r, (x == '-') = false)
    (hu : ∀ cl, u.getLast? = some cl → isPyWS cl = true)
    (hv : ∀ cf, v.head? = some cf → isPyWS cf = true) :
    r ∈ splitChunks (mungeWhitespace (u ++ r ++ v)) := by
  obtain ⟨A, B, hm, hA, hB⟩ := munge_run_decomp u r v hr hnws hu hv
  unfold splitChunks
  rw [hm]
  exact splitGo_run_mem A r B hr hnws hnh hA hB (A ++ r ++ B).length 0 (Nat.zero_le _)
    (by omega)

/-! ### Claims on `wrap_text` (C2, C8, C9, C10) -/

/-- C2 counterexample: the input "aaa" is a single maximal non-whitespace run,
but at width 2 the wrapper splits it across lines ("aa" and "a"), so no output
line contains the run intact. -/
theorem wrap_text_word_break_cex :
    (∀ x ∈ "aaa".data, isPyWS x = false) ∧
    ∀ line ∈ splitOnNewline (wrapText "aaa".data 2), ¬ ("aaa".data <:+: line) := by
  decide

/-- C2 amended: a maximal non-whitespace run of the input that contains no
hyphen and fits within the width appears intact (as a contiguous infix) on a
single line of the wrapped output. -/
theorem wrap_text_word_intact (t : List Char) (width : Nat) (u r v : List Char)
    (hw : 0 < width) (ht : t = u ++ r ++ v) (hr : r ≠ [])
    (hnws : ∀ x ∈ r, isPyWS x = false) (hnh : ∀ x ∈ r, (x == '-') = false)
    (hu : ∀ cl, u.getLast? = some cl → isPyWS cl = true)
    (hv : ∀ cf, v.head? = some cf → isPyWS cf = true)
    (hlen : r.length ≤ width) :
    ∃ line ∈ splitOnNewline (wrapText t width), r <:+: line := by
  have hrnl : '\n' ∉ r := by
    intro hcon
    have hx := hnws '\n' hcon
    exact absurd hx (by decide)
  obtain ⟨line, hlinem, p2, s2, hline, ⟨q, hq⟩, ⟨s3, hs3⟩, hp2nl⟩ :=
    splitOnNewline_locate u r v hrnl
  rw [← ht] at hlinem
  have hp2last : ∀ cl, p2.getLast? = some cl → isPyWS cl = true := by
    intro cl hcl
    cases hp2 : p2 with
    | nil =>
      rw [hp2] at hcl
      simp at hcl
    | cons a l2 =>
      refine hu cl ?_
      rw [hq, hp2, List.getLast?_append_of_ne_nil q (List.cons_ne_nil a l2), ← hp2]
      exact hcl
  have hs2head : ∀ cf, s2.head? = some cf → isPyWS cf = true := by
    intro cf hcf
    cases hs2 : s2 with
    | nil =>
      rw [hs2] at hcf
      simp at hcf
    | cons a l2 =>
      refine hv cf ?_
      rw [hs2, List.head?_cons] at hcf
      rw [hs3, hs2, List.cons_append, List.head?_cons]
      exact hcf
  have hchunk : r ∈ splitChunks (mungeWhitespace line) := by
    rw [hline]
    exact splitChunks_run_mem p2 r s2 hr hnws hnh hp2last hs2head
  have hlineblank : (pyStrip line).isEmpty = false := by
    obtain ⟨x, hx⟩ := List.exists_mem_of_ne_nil r hr
    have hxl : x ∈ line := by
      rw [hline]
      exact List.mem_append_left _ (List.mem_append_right _ hx)
    cases hb : (pyStrip line).isEmpty with
    | false => rfl
    | true =>
      have hxw := (pyStrip_isEmpty_iff line).mp hb x hxl
      rw [hnws x hx] at hxw
      cases hxw
  have hrnb : chunkIsBlank r = false := by
    obtain ⟨x, hx⟩ := List.exists_mem_of_ne_nil r hr
    exact chunkIsBlank_false_of_mem hx (hnws x hx)
  obtain ⟨oline, holine, hinf⟩ :
      ∃ oline ∈ textwrapWrap line width, r <:+: oline := by
    unfold textwrapWrap
    exact wrapChunksGo_chunk_emitted width hw _ [] _ r hchunk hrnb hlen (by omega)
  rw [wrapText_split_eq t width hw]
  refine ⟨oline, ?_, hinf⟩
  unfold wrapTextLines
  refine List.mem_flatMap.mpr ⟨line, hlinem, ?_⟩
  rw [if_neg (by rw [hlineblank]; exact Bool.false_ne_true)]
  exact holine

/-- Witness for the amended C2: in "a bbb cc" wrapped at width 3, the word
"bbb" appears intact on one output line. -/
theorem wrap_text_word_intact_witness :
    ∃ line ∈ splitOnNewline (wrapText ("a bbb cc".data) 3), "bbb".data <:+: line :=
  wrap_text_word_intact ("a bbb cc".data) 3 ("a ".data) ("bbb".data) (" cc".data)
    (by decide) (by decide) (by decide) (by decide) (by decide)
    (by
      intro cl hcl
      have hgl : ("a ".data).getLast? = some ' ' := by decide
      rw [hgl] at hcl
      injection hcl with h
      rw [← h]
      decide)
    (by
      intro cf hcf
      have hh : (" cc".data).head? = some ' ' := by decide
      rw [hh] at hcf
      injection hcf with h
      rw [← h]
      decide)
    (by decide)

/-- C10: every line of the wrapped output has length at most the width (long
words are broken by `_handle_long_word` so that no output line exceeds it). -/
theorem wrap_text_line_width (t : List Char) (width : Nat) (hw : 0 < width) :
    ∀ line ∈ splitOnNewline (wrapText t width), line.length ≤ width := by
  rw [wrapText_split_eq t width hw]
  intro line hline
  unfold wrapTextLines at hline
  obtain ⟨l, hl, hstep⟩ := List.mem_flatMap.mp hline
  by_cases hblank : (pyStrip l).isEmpty = true
  · rw [if_pos hblank] at hstep
    rcases List.mem_singleton.mp hstep with rfl
    exact Nat.zero_le width
  · rw [if_neg hblank] at hstep
    exact textwrapWrap_len l width hw line hstep

/-- Witness for C10 at the concrete input "hello world" and width 5. -/
theorem wrap_text_line_width_witness :
    0 < 5 ∧ ∀ line ∈ splitOnNewline (wrapText ("hello world".data) 5), line.length ≤ 5 :=
  ⟨by decide, wrap_text_line_width ("hello world".data) 5 (by decide)⟩

/-- C9 counterexample: the input "  bbb" is a single nonblank line (it has no
blank lines), yet wrapping it at width 2 emits the whitespace-only line "  ",
adding a blank output line where the input had none. -/
theorem wrap_text_blank_lines_cex :
    ((splitOnNewline ("  bbb".data)).filter (fun l => (pyStrip l).isEmpty)).length = 0 ∧
    ((splitOnNewline (wrapText ("  bbb".data) 2)).filter
      (fun l => (pyStrip l).isEmpty)).length = 1 := by
  decide

/-- C9 amended: when every maximal non-whitespace run of the input fits within
the width, the output lines are exactly the per-input-line images in order:
each blank input line contributes exactly one empty output line in position,
and each nonblank input line contributes a nonempty block of nonblank lines,
so blank lines are neither added nor removed. -/
theorem wrap_text_blank_lines (t : List Char) (width : Nat) (hw : 0 < width)
    (hb : runsBounded t width = true) :
    splitOnNewline (wrapText t width) =
      (splitOnNewline t).flatMap (fun l =>
        if (pyStrip l).isEmpty then [([] : List Char)] else textwrapWrap l width) ∧
    ∀ l ∈ splitOnNewline t, (pyStrip l).isEmpty = false →
      textwrapWrap l width ≠ [] ∧
        ∀ line ∈ textwrapWrap l width, (pyStrip line).isEmpty = false := by
  constructor
  · rw [wrapText_split_eq t width hw]
    rfl
  · intro l hl hnb
    have hrb : runsBounded l width = true :=
      runsBounded_mono_infix hb ( splitOnNewline_mem_infix t l hl)
    refine ⟨textwrapWrap_ne_nil l width hw hnb, ?_⟩
    intro line hline
    obtain ⟨hne, -, ⟨lc, hlc, hlcnws⟩, -⟩ := textwrapWrap_good l width hw hrb line hline
    have hlcm : lc ∈ line := by
      have hlc2 := hlc
      rw [List.getLast?_eq_getElem?] at hlc2
      exact List.getElem?_mem hlc2
    exact chunkIsBlank_false_of_mem hlcm hlcnws

/-- Witness for the amended C9 at the concrete input "aa\n\nbb" and width 10. -/
theorem wrap_text_blank_lines_witness :
    (0 < 10 ∧ runsBounded ("aa\n\nbb".data) 10 = true) ∧
    (splitOnNewline (wrapText ("aa\n\nbb".data) 10) =
      (splitOnNewline ("aa\n\nbb".data)).flatMap (fun l =>
        if (pyStrip l).isEmpty then [([] : List Char)] else textwrapWrap l 10) ∧
      ∀ l ∈ splitOnNewline ("aa\n\nbb".data), (pyStrip l).isEmpty = false →
        textwrapWrap l 10 ≠ [] ∧
          ∀ line ∈ textwrapWrap l 10, (pyStrip line).isEmpty = false) :=
  ⟨⟨by decide, by decide⟩, wrap_text_blank_lines ("aa\n\nbb".data) 10 (by decide) (by decide)⟩

/-- C8 counterexample: wrapping "a bbb" at width 2 yields "a \nbb\nb" (the
first line keeps a trailing space), and re-wrapping that output at the same
width strips the trailing space, so the wrap is not idempotent. -/
theorem wrap_text_idempotent_cex :
    wrap_text (wrap_text "a bbb" 2) 2 ≠ wrap_text "a bbb" 2 := by
  decide

/-- C8 amended: when every maximal non-whitespace run of the input fits within
the width, wrapping is idempotent: re-wrapping the wrapped text at the same
width returns it unchanged. -/
theorem wrap_text_idempotent (t : List Char) (width : Nat) (hw : 0 < width)
    (hb : runsBounded t width = true) :
    wrapText (wrapText t width) width = wrapText t width := by
  have hsplit : splitOnNewline (wrapText t width) = wrapTextLines t width :=
    wrapText_split_eq t width hw
  have hstep : ∀ l2 ∈ wrapTextLines t width,
      (if (pyStrip l2).isEmpty then [([] : List Char)] else textwrapWrap l2 width) =
        [l2] := by
    intro l2 hl2
    unfold wrapTextLines at hl2
    obtain ⟨l, hl, hstep2⟩ := List.mem_flatMap.mp hl2
    by_cases hblank : (pyStrip l).isEmpty = true
    · rw [if_pos hblank] at hstep2
      rcases List.mem_singleton.mp hstep2 with rfl
      rw [if_pos (show (pyStrip ([] : List Char)).isEmpty = true from rfl)]
    · rw [if_neg hblank] at hstep2
      have hrb : runsBounded l width = true :=
        runsBounded_mono_infix hb ( splitOnNewline_mem_infix t l hl)
      have hgood := textwrapWrap_good l width hw hrb l2 hstep2
      have hl2nb : (pyStrip l2).isEmpty = false := by
        obtain ⟨-, -, ⟨lc, hlc, hlcnws⟩, -⟩ := hgood
        have hlcm : lc ∈ l2 := by
          have hlc2 := hlc
          rw [List.getLast?_eq_getElem?] at hlc2
          exact List.getElem?_mem hlc2
        exact chunkIsBlank_false_of_mem hlcm hlcnws
      rw [if_neg (by rw [hl2nb]; exact Bool.false_ne_true)]
      exact textwrapWrap_singleton l2 width hw hgood
  have hfinal : wrapTextLines (wrapText t width) width = wrapTextLines t width := by
    have h1 : wrapTextLines (wrapText t width) width =
        (splitOnNewline (wrapText t width)).flatMap (fun l =>
          if (pyStrip l).isEmpty then [([] : List Char)] else textwrapWrap l width) := rfl
    rw [h1, hsplit]
    exact flatMap_eq_self _ (wrapTextLines t width) hstep
  show joinNewline (wrapTextLines (wrapText t width) width) = wrapText t width
  rw [hfinal, wrapText]

/-- Witness for the amended C8 at the concrete input "hello world" and width 5. -/
theorem wrap_text_idempotent_witness :
    (0 < 5 ∧ runsBounded ("hello world".data) 5 = true) ∧
    wrapText (wrapText ("hello world".data) 5) 5 = wrapText ("hello world".data) 5 :=
  ⟨⟨by decide, by decide⟩,
    wrap_text_idempotent ("hello world".data) 5 (by decide) (by decide)⟩

end GeminiCli
